import Mathlib

/-!
Shallow embedding of the geometric core of `blender_grid_script.py`
(Blender_GridIt repository).

Conventions of the embedding:

* Python floats are embedded as exact rationals (`ℚ`).  All arithmetic in the
  source (`+`, `-`, `*`, `/`, `abs`, `math.floor`, `math.ceil`, `round`) is
  exact on the values exercised here, so the rational embedding is faithful
  except for IEEE rounding noise, which the source itself guards against with
  explicit tolerances (1e-9, 1e-12) and `round(x, k)` quantization.
* Python `round(x, k)` rounds half-to-even on binary floats; we use Mathlib
  `round` (half-up).  The two agree except at exact half-ulp ties of the
  quantization step, which no input below exercises.
* `mathutils.Vector((x, y))` is embedded as a pair `ℚ × ℚ`.
* Blender `BMVert` objects have object identity: distinct calls to
  `verts.new` yield distinct vertices even at equal coordinates.  We embed a
  vertex as a tagged index (`VRef`): interior grid vertices, outer-ring
  vertices and extra vertices are created by distinct code paths and are
  pairwise distinct objects.
* `bmesh` edge creation `edges.get((v0, v1)) or edges.new((v0, v1))` adds an
  edge only when the unordered vertex pair is absent (`edgeInsert`).
* The `bpy` scene plumbing (object creation, collection linking, the final
  `edgenet_prepare`/`edgenet_fill` call, and `to_mesh`) is outside the
  algorithmic core: the builder is embedded as the vertex/edge network it
  hands to the external fill operation.
-/

namespace GridIt

/-- A 2D point in the working XY frame (`mathutils.Vector((x, y))`). -/
abbrev Pt := ℚ × ℚ

/-- The 1e-9 tolerance used by the source for on-boundary / coincidence tests. -/
def tol9 : ℚ := 1 / 10 ^ 9

/-- The 1e-12 tolerance used by the source for degenerate-segment tests. -/
def tol12 : ℚ := 1 / 10 ^ 12

/-- Python `round(x, 8)`: quantize a coordinate to 8 decimal places. -/
def round8 (q : ℚ) : ℚ := (round (q * 10 ^ 8) : ℚ) / 10 ^ 8

/-- Python `round(x, 10)`: quantize a coordinate to 10 decimal places. -/
def round10 (q : ℚ) : ℚ := (round (q * 10 ^ 10) : ℚ) / 10 ^ 10

/-- Dict key `(round(pt.x, 8), round(pt.y, 8))` used by `slice_boundary_at_grid`. -/
def key8 (p : Pt) : ℚ × ℚ := (round8 p.1, round8 p.2)

/-- Dict key `(round(pt.x, 10), round(pt.y, 10))` used by `build_grid_mesh`. -/
def key10 (p : Pt) : ℚ × ℚ := (round10 p.1, round10 p.2)

/-- `is_left(p0, p1, p2)`: z-component of the cross product
`(p1 - p0) x (p2 - p0)` (source lines 174-180). -/
def is_left (p0 p1 p2 : Pt) : ℚ :=
  (p1.1 - p0.1) * (p2.2 - p0.2) - (p2.1 - p0.1) * (p1.2 - p0.2)

/-- The exact-incidence test of `point_in_polygon` (source lines 158-161):
the point is collinear with the edge within 1e-9 and inside the edge's
bounding box expanded by 1e-9. -/
def onSegment (v1 v2 p : Pt) : Bool :=
  decide (|is_left v1 v2 p| < tol9) &&
  decide (min v1.1 v2.1 - tol9 ≤ p.1 ∧ p.1 ≤ max v1.1 v2.1 + tol9) &&
  decide (min v1.2 v2.2 - tol9 ≤ p.2 ∧ p.2 ≤ max v1.2 v2.2 + tol9)

/-- Winding-number contribution of one polygon edge (source lines 163-170):
an upward crossing with the point strictly left counts +1, a downward
crossing with the point strictly right counts -1. -/
def wnStep (v1 v2 p : Pt) : ℤ :=
  if v1.2 ≤ p.2 then
    if p.2 < v2.2 ∧ 0 < is_left v1 v2 p then 1 else 0
  else
    if v2.2 ≤ p.2 ∧ is_left v1 v2 p < 0 then -1 else 0

/-- The cyclically closed edge list `(polygon[i], polygon[(i+1) % num])` for
`i` in range; identical to zipping the polygon with its rotation by one. -/
def polyPairs (poly : List Pt) : List (Pt × Pt) := poly.zip (poly.rotate 1)

/-- The loop body of `point_in_polygon`: return `True` as soon as the point
lies exactly on an edge, otherwise accumulate the winding number. -/
def pipAux (p : Pt) : List (Pt × Pt) → ℤ → Bool
  | [], wn => decide (wn ≠ 0)
  | e :: rest, wn =>
    if onSegment e.1 e.2 p then true
    else pipAux p rest (wn + wnStep e.1 e.2 p)

/-- `point_in_polygon(point, polygon)` (source lines 125-171): winding-number
inside test; points exactly on the boundary return `True`. -/
def point_in_polygon (p : Pt) (polygon : List Pt) : Bool :=
  pipAux p (polyPairs polygon) 0

/-- Python `min` of a coordinate list (the source always calls it on a
nonempty list; `min([])` would raise). -/
def listMin : List ℚ → ℚ
  | [] => 0
  | x :: xs => xs.foldl min x

/-- Python `max` of a coordinate list (nonempty in the source). -/
def listMax : List ℚ → ℚ
  | [] => 0
  | x :: xs => xs.foldl max x

/-- Grid-line coordinates `floor(mn/step)*step, ..., ceil(mx/step)*step`
spaced by `step` (source lines 211-216 and 303-309).  Python computes the
count as `int(round((end - start) / step)) + 1`; the quotient is an exact
integer over `ℚ`, so `round` returns it and `int` truncation is identity. -/
def gridLines (mn mx step : ℚ) : List ℚ :=
  let start := (⌊mn / step⌋ : ℚ) * step
  let stop := (⌈mx / step⌉ : ℚ) * step
  let count := (round ((stop - start) / step)).toNat + 1
  (List.range count).map (fun i => start + (i : ℚ) * step)

/-- Vertical grid lines of `slice_boundary_at_grid` for a boundary. -/
def xLines (boundary : List Pt) (step : ℚ) : List ℚ :=
  gridLines (listMin (boundary.map Prod.fst)) (listMax (boundary.map Prod.fst)) step

/-- Horizontal grid lines of `slice_boundary_at_grid` for a boundary. -/
def yLines (boundary : List Pt) (step : ℚ) : List ℚ :=
  gridLines (listMin (boundary.map Prod.snd)) (listMax (boundary.map Prod.snd)) step

/-- One intersection record `(point, segment index, parameter t)`. -/
abbrev Inter := Pt × ℕ × ℚ

/-- Candidate intersections of segment `i = (p1, p2)` with the vertical grid
line `x = xv` (source lines 228-252), in emission order. -/
def vLineHits (p1 p2 : Pt) (i : ℕ) (xv : ℚ) : List Inter :=
  if (p1.1 - xv) * (p2.1 - xv) ≤ 0 then
    if tol12 < |p2.1 - p1.1| then
      let t := (xv - p1.1) / (p2.1 - p1.1)
      if 0 ≤ t ∧ t ≤ 1 then
        let yInt := p1.2 + t * (p2.2 - p1.2)
        if min p1.2 p2.2 - tol9 ≤ yInt ∧ yInt ≤ max p1.2 p2.2 + tol9 then
          [((xv, yInt), i, t)]
        else []
      else []
    else
      if |p1.1 - xv| < tol9 then
        [((xv, p1.2), i, 0), ((xv, p2.2), i, 1)]
      else []
  else []

/-- Candidate intersections of segment `i = (p1, p2)` with the horizontal
grid line `y = yv` (source lines 254-272), in emission order. -/
def hLineHits (p1 p2 : Pt) (i : ℕ) (yv : ℚ) : List Inter :=
  if (p1.2 - yv) * (p2.2 - yv) ≤ 0 then
    if tol12 < |p2.2 - p1.2| then
      let t := (yv - p1.2) / (p2.2 - p1.2)
      if 0 ≤ t ∧ t ≤ 1 then
        let xInt := p1.1 + t * (p2.1 - p1.1)
        if min p1.1 p2.1 - tol9 ≤ xInt ∧ xInt ≤ max p1.1 p2.1 + tol9 then
          [((xInt, yv), i, t)]
        else []
      else []
    else
      if |p1.2 - yv| < tol9 then
        [((p1.1, yv), i, 0), ((p2.1, yv), i, 1)]
      else []
  else []

/-- All candidate intersections of one boundary segment, vertical lines before
horizontal ones, matching the source's loop nesting.  The degenerate-segment
guard `segment_vec.length < 1e-12` is embedded squared (both sides are
nonnegative, so comparing squares is equivalent). -/
def segHits (p1 p2 : Pt) (i : ℕ) (xs ys : List ℚ) : List Inter :=
  if (p2.1 - p1.1) ^ 2 + (p2.2 - p1.2) ^ 2 < tol12 ^ 2 then []
  else (xs.flatMap (vLineHits p1 p2 i)) ++ (ys.flatMap (hLineHits p1 p2 i))

/-- The full stream of computed intersections in the order the source computes
them (outer loop over segments). -/
def rawHits (boundary : List Pt) (step : ℚ) : List Inter :=
  let xs := xLines boundary step
  let ys := yLines boundary step
  let n := boundary.length
  (List.range n).flatMap (fun i =>
    segHits (boundary.getD i (0, 0)) (boundary.getD ((i + 1) % n) (0, 0)) i xs ys)

/-- The `inter_dict` insertion discipline: a Python dict keyed by `key8`,
`if key not in inter_dict: inter_dict[key] = entry`; iteration order of the
values is first-insertion order (source lines 217-274). -/
def dedupKeys (seen : List (ℚ × ℚ)) : List Inter → List Inter
  | [] => []
  | e :: rest =>
    if key8 e.1 ∈ seen then dedupKeys seen rest
    else e :: dedupKeys (key8 e.1 :: seen) rest

/-- The sort key `lambda x: (x[1], x[2])`: lexicographic order on
(segment index, parameter). -/
def interLE (a b : Inter) : Bool :=
  decide (a.2.1 < b.2.1) || (decide (a.2.1 = b.2.1) && decide (a.2.2 ≤ b.2.2))

/-- `slice_boundary_at_grid(boundary, step)` (source lines 183-277). -/
def slice_boundary_at_grid (boundary : List Pt) (step : ℚ) : List Inter :=
  (dedupKeys [] (rawHits boundary step)).mergeSort interLE

/-- A `BMVert` of the output mesh, tagged by which code path created it:
interior grid vertex, outer-ring vertex, or extra intersection vertex.
Distinct tags are distinct Blender objects even at equal coordinates. -/
inductive VRef where
  | grid (n : ℕ)
  | ring (n : ℕ)
  | extra (n : ℕ)
deriving DecidableEq, Repr

/-- A mesh edge: a pair of vertex references.  `bmesh` treats the pair as
unordered. -/
abbrev Edge := VRef × VRef

/-- Unordered equality of edges, the identification used by `edges.get`. -/
def sameEdge (e f : Edge) : Bool :=
  (decide (e.1 = f.1) && decide (e.2 = f.2)) ||
  (decide (e.1 = f.2) && decide (e.2 = f.1))

/-- `bm.edges.get((v0, v1)) or bm.edges.new((v0, v1))`: add the unordered
pair to the edge set only when absent. -/
def edgeInsert (es : List Edge) (e : Edge) : List Edge :=
  if es.any (sameEdge e) then es else es ++ [e]

/-- `math.floor(min_x / step) * step` of `build_grid_mesh` (source line 303). -/
def gridStartX (pts : List Pt) (step : ℚ) : ℚ :=
  (⌊listMin (pts.map Prod.fst) / step⌋ : ℚ) * step

/-- `math.ceil(max_x / step) * step` (source line 304). -/
def gridEndX (pts : List Pt) (step : ℚ) : ℚ :=
  (⌈listMax (pts.map Prod.fst) / step⌉ : ℚ) * step

/-- `math.floor(min_y / step) * step` (source line 305). -/
def gridStartY (pts : List Pt) (step : ℚ) : ℚ :=
  (⌊listMin (pts.map Prod.snd) / step⌋ : ℚ) * step

/-- `math.ceil(max_y / step) * step` (source line 306). -/
def gridEndY (pts : List Pt) (step : ℚ) : ℚ :=
  (⌈listMax (pts.map Prod.snd) / step⌉ : ℚ) * step

/-- `x_count = int(round((end_x - start_x) / step)) + 1` (source line 308). -/
def gridCountX (pts : List Pt) (step : ℚ) : ℕ :=
  (round ((gridEndX pts step - gridStartX pts step) / step)).toNat + 1

/-- `y_count = int(round((end_y - start_y) / step)) + 1` (source line 309). -/
def gridCountY (pts : List Pt) (step : ℚ) : ℕ :=
  (round ((gridEndY pts step - gridStartY pts step) / step)).toNat + 1

/-- The `candidate_points` loop of `build_grid_mesh` (source lines 307-316):
all lattice points of the covering grid that pass `point_in_polygon` against
the original boundary, outer loop over `i`, inner over `j`. -/
def candidatePoints (b : List Pt) (step : ℚ) : List Pt :=
  (List.range (gridCountX b step)).flatMap (fun i =>
    (List.range (gridCountY b step)).filterMap (fun j =>
      let pt : Pt := (gridStartX b step + (i : ℚ) * step,
                      gridStartY b step + (j : ℚ) * step)
      if point_in_polygon pt b then some pt else none))

/-- The `vert_map` insertion discipline (source lines 324-330): one vertex per
`key10`-distinct candidate point, in first-occurrence order. -/
def dedupVerts (seen : List (ℚ × ℚ)) : List Pt → List Pt
  | [] => []
  | p :: ps =>
    if key10 p ∈ seen then dedupVerts seen ps
    else p :: dedupVerts (key10 p :: seen) ps

/-- Index of the grid vertex created for a candidate point: position of the
first `key10`-equal point in the deduplicated vertex list (`vert_map[key]`). -/
def vertIndexOf (verts : List Pt) (pt : Pt) : ℕ :=
  verts.findIdx (fun q => decide (key10 q = key10 pt))

/-- `grid_map` (source lines 334-340): lattice cell `(i, j)` of each candidate
point mapped to its grid vertex index.  Python recovers the cell with
`int(round((pt - start) / step))`; over `ℚ` the quotient is the exact lattice
index.  Cells are pairwise distinct for `step ≠ 0`, so first-match lookup
agrees with the Python dict. -/
def gridMapOf (b : List Pt) (step : ℚ) : List ((ℤ × ℤ) × ℕ) :=
  let verts := dedupVerts [] (candidatePoints b step)
  (candidatePoints b step).map (fun pt =>
    ((round ((pt.1 - gridStartX b step) / step),
      round ((pt.2 - gridStartY b step) / step)),
     vertIndexOf verts pt))

/-- Interior lattice edges (source lines 344-360): horizontal edges first
(`j` to `j+1`), then vertical edges (`i` to `i+1`), 4-connectivity only,
added through the `edges.get or edges.new` dedup. -/
def gridEdgesOf (gmap : List ((ℤ × ℤ) × ℕ)) (xc yc : ℕ) : List Edge :=
  let hPairs := (List.range xc).flatMap (fun i =>
    (List.range (yc - 1)).filterMap (fun j =>
      match gmap.lookup ((i : ℤ), (j : ℤ)), gmap.lookup ((i : ℤ), (j : ℤ) + 1) with
      | some a, some b => some ((VRef.grid a, VRef.grid b) : Edge)
      | _, _ => none))
  let vPairs := (List.range (xc - 1)).flatMap (fun i =>
    (List.range yc).filterMap (fun j =>
      match gmap.lookup ((i : ℤ), (j : ℤ)), gmap.lookup ((i : ℤ) + 1, (j : ℤ)) with
      | some a, some b => some ((VRef.grid a, VRef.grid b) : Edge)
      | _, _ => none))
  (hPairs ++ vPairs).foldl edgeInsert []

/-- Sequentially connect `n` ring vertices into a closed loop
(source lines 374-379 and 388-392), through the edge dedup.  Ring vertices
are fresh objects, so their edges cannot collide with grid edges and the
dedup over the ring edges alone is faithful. -/
def loopEdges (n : ℕ) : List Edge :=
  (List.range n).foldl
    (fun es idx => edgeInsert es (VRef.ring idx, VRef.ring ((idx + 1) % n))) []

/-- `dist_sq` comparison fold of `find_nearest_grid_vert` (source lines
404-422): scan the 3x3 cell neighbourhood in loop order, keeping the first
strictly smaller squared distance. -/
def distSq (a b : Pt) : ℚ := (a.1 - b.1) ^ 2 + (a.2 - b.2) ^ 2

/-- The estimated lattice cell `(int(floor((pt - start) / step)))` of a point
(source lines 407-408). -/
def cellOf (startX startY step : ℚ) (pt : Pt) : ℤ × ℤ :=
  (⌊(pt.1 - startX) / step⌋, ⌊(pt.2 - startY) / step⌋)

/-- The 3x3 neighbourhood `range(xi-1, xi+2) x range(yi-1, yi+2)` in the
source's loop order (outer `ii`, inner `jj`). -/
def neighborhood (c : ℤ × ℤ) : List (ℤ × ℤ) :=
  [(c.1 - 1, c.2 - 1), (c.1 - 1, c.2), (c.1 - 1, c.2 + 1),
   (c.1, c.2 - 1), (c.1, c.2), (c.1, c.2 + 1),
   (c.1 + 1, c.2 - 1), (c.1 + 1, c.2), (c.1 + 1, c.2 + 1)]

/-- The best-candidate fold of `find_nearest_grid_vert`. -/
def nearestFold (coords : ℕ → Pt) (pt : Pt) (gmap : List ((ℤ × ℤ) × ℕ))
    (cells : List (ℤ × ℤ)) : Option (ℕ × ℚ) :=
  cells.foldl (fun best c =>
    match gmap.lookup c with
    | none => best
    | some gv =>
      let d := distSq (coords gv) pt
      match best with
      | none => some (gv, d)
      | some b => if d < b.2 then some (gv, d) else some b) none

/-- `find_nearest_grid_vert(pt)` (source lines 404-422): nearest interior grid
vertex in the 3x3 neighbourhood of the estimated cell, by squared distance. -/
def find_nearest_grid_vert (gmap : List ((ℤ × ℤ) × ℕ)) (verts : List Pt)
    (startX startY step : ℚ) (pt : Pt) : Option ℕ :=
  (nearestFold (fun n => verts.getD n (0, 0)) pt gmap
    (neighborhood (cellOf startX startY step pt))).map Prod.fst

/-- The vertex/edge network `build_grid_mesh` hands to the external fill
operation. -/
structure GridMesh where
  gridVerts : List Pt
  gridEdges : List Edge
  ringVerts : List Pt
  extraVerts : List Pt
  ringEdges : List Edge
  bridges : List Edge
deriving Repr

/-- All vertices of the output mesh, in creation order: interior grid
vertices, then ring vertices, then extra vertices. -/
def GridMesh.allVerts (m : GridMesh) : List Pt :=
  m.gridVerts ++ m.ringVerts ++ m.extraVerts

/-- All edges of the output mesh. -/
def GridMesh.allEdges (m : GridMesh) : List Edge :=
  m.gridEdges ++ m.ringEdges ++ m.bridges

/-- `build_grid_mesh(boundary_points, step, extra_points, use_extra_as_boundary)`
(source lines 280-451).  `extra_points = None` is embedded as `[]` (Python
only ever tests its truthiness).  The bridge loop runs over
`boundary_verts + extra_verts`; the guard `bv != gv` always holds because
ring/extra vertices are distinct objects from grid vertices, and bridge
pairs are pairwise fresh, so the edge dedup never drops one. -/
def build_grid_mesh (boundary_points : List Pt) (step : ℚ)
    (extra_points : List Pt) (use_extra_as_boundary : Bool) : GridMesh :=
  let startX := gridStartX boundary_points step
  let startY := gridStartY boundary_points step
  let xc := gridCountX boundary_points step
  let yc := gridCountY boundary_points step
  let verts := dedupVerts [] (candidatePoints boundary_points step)
  let gmap := gridMapOf boundary_points step
  let ge := gridEdgesOf gmap xc yc
  let ringPts := if use_extra_as_boundary && !extra_points.isEmpty
                 then extra_points else boundary_points
  let extraPts := if use_extra_as_boundary && !extra_points.isEmpty
                  then [] else extra_points
  let re := loopEdges ringPts.length
  let outer : List (VRef × Pt) :=
    (ringPts.enum.map (fun a => (VRef.ring a.1, a.2))) ++
    (extraPts.enum.map (fun a => (VRef.extra a.1, a.2)))
  let br := outer.filterMap (fun rp =>
    (find_nearest_grid_vert gmap verts startX startY step rp.2).map
      (fun g => (rp.1, VRef.grid g)))
  { gridVerts := verts, gridEdges := ge, ringVerts := ringPts,
    extraVerts := extraPts, ringEdges := re, bridges := br }

/-- The pure tail of `run(step)` (source lines 484-493): slice the extracted
boundary at the grid lines, take the intersection points in order, and call
the builder with them as substitute boundary exactly when nonempty
(`use_extra_as_boundary=bool(ordered_intersections)`).  The `bpy` scene
lookup, boundary extraction and final Z alignment are external. -/
def runCore (boundary : List Pt) (step : ℚ) : GridMesh :=
  let sliceInfo := slice_boundary_at_grid boundary step
  let ordered := sliceInfo.map (fun e => e.1)
  build_grid_mesh boundary step ordered (!ordered.isEmpty)

/-- Traversal state of the `while True` loop of `extract_boundary_loop`
(source lines 92-114). -/
structure TravState where
  current : ℕ
  visited : List ℕ
  loopIdx : List ℕ
  finished : Bool
deriving Repr

/-- The adjacency map `adj[v]` (source lines 81-86): boundary edges incident
to `v`, paired with their index, in input order. -/
def adjOf (edges : List (ℕ × ℕ)) (v : ℕ) : List (ℕ × (ℕ × ℕ)) :=
  edges.enum.filter (fun ie => decide (ie.2.1 = v) || decide (ie.2.2 = v))

/-- The `next unvisited boundary edge incident to current vertex` search
(source lines 98-102). -/
def findNext (edges : List (ℕ × ℕ)) (s : TravState) : Option (ℕ × (ℕ × ℕ)) :=
  (adjOf edges s.current).find? (fun ie => !s.visited.contains ie.1)

/-- One iteration of the traversal loop: either break (no unvisited incident
edge), or mark the edge visited and advance, breaking when the loop
closes on the start vertex. -/
def travStep (edges : List (ℕ × ℕ)) (s : TravState) : TravState :=
  match findNext edges s with
  | none => { s with finished := true }
  | some (idx, e) =>
    let nextV := if e.1 = s.current then e.2 else e.1
    if nextV = s.loopIdx.headD 0 then
      { s with visited := idx :: s.visited, current := nextV, finished := true }
    else
      { s with visited := idx :: s.visited, current := nextV,
               loopIdx := s.loopIdx ++ [nextV] }

/-- Run at most `fuel` iterations of the traversal loop. -/
def travGo (edges : List (ℕ × ℕ)) : ℕ → TravState → TravState
  | 0, s => s
  | n + 1, s => if s.finished then s else travGo edges n (travStep edges s)

/-- The initial traversal state (source lines 88-94): start at the first
vertex of the first boundary edge with nothing visited. -/
def travInit (edges : List (ℕ × ℕ)) : TravState :=
  { current := (edges.headD (0, 0)).1, visited := [],
    loopIdx := [(edges.headD (0, 0)).1], finished := false }

/-- The unit square boundary used by the spec's round-trip test. -/
def unitSquare : List Pt := [(0, 0), (1, 0), (1, 1), (0, 1)]

/-- The `vert_map` fold emits vertices with pairwise-distinct `key10` keys,
none of which is already in `seen`. -/
theorem dedupVerts_key_nodup (l : List Pt) (seen : List (ℚ × ℚ)) :
    ((dedupVerts seen l).map key10).Nodup ∧
    ∀ k ∈ (dedupVerts seen l).map key10, k ∉ seen := by
  induction l generalizing seen with
  | nil => simp [dedupVerts]
  | cons p ps ih =>
    by_cases h : key10 p ∈ seen
    · simpa [dedupVerts, h] using ih seen
    · have h2 := ih (key10 p :: seen)
      constructor
      · simp only [dedupVerts, h, if_false, List.map_cons, List.nodup_cons]
        exact ⟨fun hc => (h2.2 _ hc) (List.mem_cons_self _ _), h2.1⟩
      · intro k hk
        simp only [dedupVerts, h, if_false, List.map_cons, List.mem_cons] at hk
        rcases hk with rfl | hk
        · exact h
        · exact fun hs => (h2.2 k hk) (List.mem_cons_of_mem _ hs)

/-- C1.  The claim says a boundary with fewer than 3 points makes the builder
refuse, emitting no vertices and no edges.  The code has no such check: the
two-point boundary [(0,0), (1,0)] with step 1 yields a mesh with vertices
and edges. -/
theorem C1_counterexample :
    ([((0 : ℚ), (0 : ℚ)), (1, 0)] : List Pt).length < 3 ∧
    (build_grid_mesh [((0 : ℚ), (0 : ℚ)), (1, 0)] 1 [] false).allVerts ≠ [] ∧
    (build_grid_mesh [((0 : ℚ), (0 : ℚ)), (1, 0)] 1 [] false).allEdges ≠ [] :=
  of_decide_eq_true (by with_unfolding_all rfl)

/-- C1 amended: `build_grid_mesh` never refuses a 2-point boundary; it still
emits one ring vertex per boundary point and the single closing ring edge
(the reverse closing edge is dropped by the unordered-pair dedup). -/
theorem C1_two_point_boundary_builds (p q : Pt) (s : ℚ) :
    (build_grid_mesh [p, q] s [] false).ringVerts = [p, q] ∧
    (build_grid_mesh [p, q] s [] false).ringEdges =
      [(VRef.ring 0, VRef.ring 1)] := by
  constructor
  · simp [build_grid_mesh]
  · have h : (build_grid_mesh [p, q] s [] false).ringEdges = loopEdges 2 := by
      simp [build_grid_mesh]
    rw [h]
    decide

/-- C2.  The claim says no two output vertices (interior grid, outer ring, or
extra) share a `key10`-rounded coordinate.  For the unit square with step 1
every lattice corner is created twice: once as a deduplicated interior grid
vertex and once as an outer-ring vertex, so the combined vertex list has
duplicate rounded coordinates. -/
theorem C2_counterexample :
    ¬ (((build_grid_mesh unitSquare 1 [] false).allVerts.map key10).Nodup) :=
  of_decide_eq_true (by with_unfolding_all rfl)

/-- C2 amended: only the interior grid vertices are deduplicated by
coordinate rounded to 10 decimal places; no two interior grid vertices share
a rounded coordinate (ring and extra vertices are created without
deduplication). -/
theorem C2_grid_verts_dedup (b : List Pt) (s : ℚ) (e : List Pt) (f : Bool) :
    (((build_grid_mesh b s e f).gridVerts).map key10).Nodup := by
  simp only [build_grid_mesh]
  exact (dedupVerts_key_nodup _ _).1

/-- C3.  For the unit square boundary and step 1/2, the intersector returns
exactly the four corners plus the four edge midpoints, each on a grid line,
ordered by (segment index, parameter). -/
theorem C3_unit_square_roundtrip :
    slice_boundary_at_grid unitSquare (1 / 2) =
      [((0, 0), 0, 0), ((1 / 2, 0), 0, 1 / 2), ((1, 0), 0, 1),
       ((1, 1 / 2), 1, 1 / 2), ((1, 1), 1, 1),
       ((1 / 2, 1), 2, 1 / 2), ((0, 1), 2, 1), ((0, 1 / 2), 3, 1 / 2)] ∧
    (slice_boundary_at_grid unitSquare (1 / 2)).length = 8 ∧
    (∀ e ∈ slice_boundary_at_grid unitSquare (1 / 2),
      e.1.1 ∈ xLines unitSquare (1 / 2) ∨ e.1.2 ∈ yLines unitSquare (1 / 2)) ∧
    (slice_boundary_at_grid unitSquare (1 / 2)).Pairwise
      (fun a b => interLE a b = true) :=
  of_decide_eq_true (by with_unfolding_all rfl)

/-- Every entry surviving the dict dedup came from the raw stream. -/
theorem dedupKeys_subset (l : List Inter) (seen : List (ℚ × ℚ)) (e : Inter)
    (he : e ∈ dedupKeys seen l) : e ∈ l := by
  induction l generalizing seen with
  | nil => simp [dedupKeys] at he
  | cons x rest ih =>
    by_cases h : key8 x.1 ∈ seen
    · simp only [dedupKeys, h, if_true] at he
      exact List.mem_cons_of_mem _ (ih _ he)
    · simp only [dedupKeys, h, if_false, List.mem_cons] at he
      rcases he with rfl | he
      · exact List.mem_cons_self _ _
      · exact List.mem_cons_of_mem _ (ih _ he)

/-- The dict dedup emits entries with pairwise-distinct `key8` keys, none
already in `seen`. -/
theorem dedupKeys_key_nodup (l : List Inter) (seen : List (ℚ × ℚ)) :
    ((dedupKeys seen l).map (fun e => key8 e.1)).Nodup ∧
    ∀ k ∈ (dedupKeys seen l).map (fun e => key8 e.1), k ∉ seen := by
  induction l generalizing seen with
  | nil => simp [dedupKeys]
  | cons x rest ih =>
    by_cases h : key8 x.1 ∈ seen
    · simpa [dedupKeys, h] using ih seen
    · have h2 := ih (key8 x.1 :: seen)
      constructor
      · simp only [dedupKeys, h, if_false, List.map_cons, List.nodup_cons]
        exact ⟨fun hc => (h2.2 _ hc) (List.mem_cons_self _ _), h2.1⟩
      · intro k hk
        simp only [dedupKeys, h, if_false, List.map_cons, List.mem_cons] at hk
        rcases hk with rfl | hk
        · exact h
        · exact fun hs => (h2.2 k hk) (List.mem_cons_of_mem _ hs)

/-- First-writer-wins: every entry retained by the dict dedup is the first
entry of the incoming stream carrying its `key8` key. -/
theorem dedupKeys_first_writer (l : List Inter) (seen : List (ℚ × ℚ)) (e : Inter)
    (he : e ∈ dedupKeys seen l) :
    key8 e.1 ∉ seen ∧
    l.find? (fun r => decide (key8 r.1 = key8 e.1)) = some e := by
  induction l generalizing seen with
  | nil => simp [dedupKeys] at he
  | cons x rest ih =>
    by_cases h : key8 x.1 ∈ seen
    · simp only [dedupKeys, h, if_true] at he
      have h2 := ih _ he
      have hne : key8 x.1 ≠ key8 e.1 := fun hkeq => h2.1 (hkeq ▸ h)
      refine ⟨h2.1, ?_⟩
      rw [List.find?_cons_of_neg _ (by simpa using hne)]
      exact h2.2
    · simp only [dedupKeys, h, if_false, List.mem_cons] at he
      rcases he with rfl | he
      · exact ⟨h, by rw [List.find?_cons_of_pos _ (by simp)]⟩
      · have h2 := ih _ he
        have hnotin : key8 e.1 ∉ seen :=
          fun hs => h2.1 (List.mem_cons_of_mem _ hs)
        have hne : key8 x.1 ≠ key8 e.1 :=
          fun hkeq => h2.1 (hkeq ▸ List.mem_cons_self _ _)
        refine ⟨hnotin, ?_⟩
        rw [List.find?_cons_of_neg _ (by simpa using hne)]
        exact h2.2

/-- Every key of the incoming stream is covered: it is already in `seen` or
some retained entry carries it. -/
theorem dedupKeys_covers (l : List Inter) (seen : List (ℚ × ℚ)) (r : Inter)
    (hr : r ∈ l) :
    key8 r.1 ∈ seen ∨ ∃ e ∈ dedupKeys seen l, key8 e.1 = key8 r.1 := by
  induction l generalizing seen with
  | nil => simp at hr
  | cons x rest ih =>
    by_cases h : key8 x.1 ∈ seen
    · simp only [dedupKeys, h, if_true]
      rcases List.mem_cons.mp hr with rfl | hr'
      · exact Or.inl h
      · exact ih _ hr'
    · simp only [dedupKeys, h, if_false]
      rcases List.mem_cons.mp hr with rfl | hr'
      · exact Or.inr ⟨r, List.mem_cons_self _ _, rfl⟩
      · rcases ih (key8 x.1 :: seen) hr' with hs | ⟨e, he, hk⟩
        · rcases List.mem_cons.mp hs with hxk | hs'
          · exact Or.inr ⟨x, List.mem_cons_self _ _, hxk.symm⟩
          · exact Or.inl hs'
        · exact Or.inr ⟨e, List.mem_cons_of_mem _ he, hk⟩

/-- C4.  Per-coordinate dedup of the intersector: the returned entries have
pairwise distinct `key8`-rounded coordinates; each returned entry is exactly
the first computed intersection with its rounded coordinate (first writer
wins); and every computed intersection's rounded coordinate is represented. -/
theorem C4_first_writer_wins (b : List Pt) (s : ℚ) :
    (((slice_boundary_at_grid b s).map (fun e => key8 e.1)).Nodup) ∧
    (∀ e ∈ slice_boundary_at_grid b s,
      (rawHits b s).find? (fun r => decide (key8 r.1 = key8 e.1)) = some e) ∧
    (∀ r ∈ rawHits b s,
      ∃ e ∈ slice_boundary_at_grid b s, key8 e.1 = key8 r.1) := by
  have hperm : (slice_boundary_at_grid b s).Perm (dedupKeys [] (rawHits b s)) :=
    List.mergeSort_perm _ _
  have h1 : ((dedupKeys [] (rawHits b s)).map (fun e => key8 e.1)).Nodup :=
    (dedupKeys_key_nodup (rawHits b s) []).1
  have h2 : ((slice_boundary_at_grid b s).map (fun e => key8 e.1)).Perm
      ((dedupKeys [] (rawHits b s)).map (fun e => key8 e.1)) :=
    hperm.map _
  have hmem : ∀ e : Inter,
      e ∈ slice_boundary_at_grid b s ↔ e ∈ dedupKeys [] (rawHits b s) :=
    fun e => hperm.mem_iff
  refine ⟨h2.nodup_iff.mpr h1, ?_, ?_⟩
  · intro e he
    exact (dedupKeys_first_writer _ _ _ ((hmem e).mp he)).2
  · intro r hr
    rcases dedupKeys_covers (rawHits b s) [] r hr with hs | ⟨e, he, hk⟩
    · simp at hs
    · exact ⟨e, (hmem e).mpr he, hk⟩

set_option maxHeartbeats 2000000 in
/-- C4 witness: on the unit square with step 1/2 the corner (1, 0) is
computed twice (segment 0 at t=1, then segment 1 at t=0); the retained entry
is the first computed one, and its key is represented exactly once. -/
theorem C4_witness :
    (((1 : ℚ), (0 : ℚ)), 1, (0 : ℚ)) ∈ rawHits unitSquare (1 / 2) ∧
    (rawHits unitSquare (1 / 2)).find?
      (fun r => decide (key8 r.1 = key8 ((1 : ℚ), (0 : ℚ)))) =
      some ((1, 0), 0, 1) ∧
    (∃ e ∈ slice_boundary_at_grid unitSquare (1 / 2),
      key8 e.1 = key8 ((1 : ℚ), (0 : ℚ))) := by
  refine ⟨of_decide_eq_true (by with_unfolding_all rfl), ?_, ?_⟩
  · exact (C4_first_writer_wins unitSquare (1 / 2)).2.1 ((1, 0), 0, 1)
      (of_decide_eq_true (by with_unfolding_all rfl))
  · exact (C4_first_writer_wins unitSquare (1 / 2)).2.2 ((1, 0), 1, 0)
      (of_decide_eq_true (by with_unfolding_all rfl))

/-- The sort key `(x[1], x[2])` is transitive. -/
theorem interLE_trans (a b c : Inter) (hab : interLE a b = true)
    (hbc : interLE b c = true) : interLE a c = true := by
  simp only [interLE, Bool.or_eq_true, Bool.and_eq_true, decide_eq_true_eq]
    at hab hbc ⊢
  rcases hab with h1 | ⟨h1, h1'⟩ <;> rcases hbc with h2 | ⟨h2, h2'⟩
  · exact Or.inl (h1.trans h2)
  · exact Or.inl (h2 ▸ h1)
  · exact Or.inl (h1 ▸ h2)
  · exact Or.inr ⟨h1.trans h2, h1'.trans h2'⟩

/-- The sort key `(x[1], x[2])` is total. -/
theorem interLE_total (a b : Inter) : (interLE a b || interLE b a) = true := by
  simp only [interLE, Bool.or_eq_true, Bool.and_eq_true, decide_eq_true_eq]
  rcases lt_trichotomy a.2.1 b.2.1 with h | h | h
  · exact Or.inl (Or.inl h)
  · rcases le_total a.2.2 b.2.2 with h' | h'
    · exact Or.inl (Or.inr ⟨h, h'⟩)
    · exact Or.inr (Or.inr ⟨h.symm, h'⟩)
  · exact Or.inr (Or.inl h)

/-- C5.  The intersector output is sorted ascending by
(segment index, parameter). -/
theorem C5_output_sorted (b : List Pt) (s : ℚ) (_hs : 0 < s) :
    (slice_boundary_at_grid b s).Pairwise (fun a c => interLE a c = true) :=
  List.sorted_mergeSort interLE_trans interLE_total _

/-- C5 witness at the unit square with step 1/2. -/
theorem C5_witness :
    (0 : ℚ) < 1 / 2 ∧
    (slice_boundary_at_grid unitSquare (1 / 2)).Pairwise
      (fun a c => interLE a c = true) :=
  ⟨by norm_num, C5_output_sorted unitSquare (1 / 2) (by norm_num)⟩

/-- Entries emitted against a vertical grid line have parameter in [0, 1] and
x-coordinate exactly the line's coordinate. -/
theorem vLineHits_mem (p1 p2 : Pt) (i : ℕ) (xv : ℚ) (e : Inter)
    (he : e ∈ vLineHits p1 p2 i xv) :
    0 ≤ e.2.2 ∧ e.2.2 ≤ 1 ∧ e.1.1 = xv := by
  simp only [vLineHits] at he
  split_ifs at he with h1 h2 h3 h4 h5 <;>
    simp only [List.mem_singleton, List.mem_cons, List.not_mem_nil,
      or_false] at he
  · subst he
    exact ⟨h3.1, h3.2, rfl⟩
  · rcases he with rfl | rfl
    · exact ⟨le_refl 0, zero_le_one, rfl⟩
    · exact ⟨zero_le_one, le_refl 1, rfl⟩

/-- Entries emitted against a horizontal grid line have parameter in [0, 1]
and y-coordinate exactly the line's coordinate. -/
theorem hLineHits_mem (p1 p2 : Pt) (i : ℕ) (yv : ℚ) (e : Inter)
    (he : e ∈ hLineHits p1 p2 i yv) :
    0 ≤ e.2.2 ∧ e.2.2 ≤ 1 ∧ e.1.2 = yv := by
  simp only [hLineHits] at he
  split_ifs at he with h1 h2 h3 h4 h5 <;>
    simp only [List.mem_singleton, List.mem_cons, List.not_mem_nil,
      or_false] at he
  · subst he
    exact ⟨h3.1, h3.2, rfl⟩
  · rcases he with rfl | rfl
    · exact ⟨le_refl 0, zero_le_one, rfl⟩
    · exact ⟨zero_le_one, le_refl 1, rfl⟩

/-- C10.  Every entry returned by the intersector has parameter t in [0, 1]
and lies exactly on a generated grid line: its x-coordinate is one of the
vertical line coordinates or its y-coordinate is one of the horizontal
line coordinates. -/
theorem C10_entry_invariant (b : List Pt) (s : ℚ) (e : Inter)
    (he : e ∈ slice_boundary_at_grid b s) :
    0 ≤ e.2.2 ∧ e.2.2 ≤ 1 ∧ (e.1.1 ∈ xLines b s ∨ e.1.2 ∈ yLines b s) := by
  have hraw : e ∈ rawHits b s :=
    dedupKeys_subset _ _ _ ((List.mergeSort_perm _ _).mem_iff.mp he)
  unfold rawHits at hraw
  rcases List.mem_flatMap.mp hraw with ⟨i, _, hseg⟩
  unfold segHits at hseg
  split_ifs at hseg with hdeg
  · exact absurd hseg (List.not_mem_nil _)
  rcases List.mem_append.mp hseg with hv | hh
  · rcases List.mem_flatMap.mp hv with ⟨xv, hxv, hhit⟩
    have h := vLineHits_mem _ _ _ _ _ hhit
    exact ⟨h.1, h.2.1, Or.inl (h.2.2 ▸ hxv)⟩
  · rcases List.mem_flatMap.mp hh with ⟨yv, hyv, hhit⟩
    have h := hLineHits_mem _ _ _ _ _ hhit
    exact ⟨h.1, h.2.1, Or.inr (h.2.2 ▸ hyv)⟩

/-- C10 witness at the unit square with step 1/2, entry ((0,0), 0, 0). -/
theorem C10_witness :
    (((0 : ℚ), (0 : ℚ)), 0, (0 : ℚ)) ∈ slice_boundary_at_grid unitSquare (1 / 2) ∧
    (0 ≤ ((((0 : ℚ), (0 : ℚ)), 0, (0 : ℚ)) : Inter).2.2 ∧
     ((((0 : ℚ), (0 : ℚ)), 0, (0 : ℚ)) : Inter).2.2 ≤ 1 ∧
     (((((0 : ℚ), (0 : ℚ)), 0, (0 : ℚ)) : Inter).1.1 ∈ xLines unitSquare (1 / 2) ∨
      ((((0 : ℚ), (0 : ℚ)), 0, (0 : ℚ)) : Inter).1.2 ∈ yLines unitSquare (1 / 2))) :=
  ⟨of_decide_eq_true (by with_unfolding_all rfl),
   C10_entry_invariant unitSquare (1 / 2) (((0 : ℚ), (0 : ℚ)), 0, (0 : ℚ))
     (of_decide_eq_true (by with_unfolding_all rfl))⟩

/-- An edge is present (as unordered pair) after inserting it. -/
theorem edgeInsert_self (es : List Edge) (e : Edge) :
    (edgeInsert es e).any (sameEdge e) = true := by
  unfold edgeInsert
  by_cases h : es.any (sameEdge e)
  · rw [if_pos h]
    exact h
  · simp [h, List.any_append, sameEdge]

/-- Edge insertion preserves the presence of any edge. -/
theorem edgeInsert_mono (es : List Edge) (e f : Edge)
    (hf : es.any (sameEdge f) = true) :
    (edgeInsert es e).any (sameEdge f) = true := by
  unfold edgeInsert
  by_cases h : es.any (sameEdge e)
  · simpa [h] using hf
  · simp [h, List.any_append, hf]

/-- Folding edge insertions over an index list makes every indexed edge
present. -/
theorem foldl_edgeInsert_mem (g : ℕ → Edge) (l : List ℕ) (pre : List Edge)
    (i : ℕ) (hi : i ∈ l ∨ pre.any (sameEdge (g i)) = true) :
    ((l.foldl (fun es j => edgeInsert es (g j)) pre).any (sameEdge (g i))) = true := by
  induction l generalizing pre with
  | nil =>
    rcases hi with h | h
    · simp at h
    · simpa using h
  | cons j rest ih =>
    simp only [List.foldl_cons]
    rcases hi with h | h
    · rcases List.mem_cons.mp h with rfl | h'
      · exact ih _ (Or.inr (edgeInsert_self _ _))
      · exact ih _ (Or.inl h')
    · exact ih _ (Or.inr (edgeInsert_mono _ _ _ h))

/-- Every consecutive ring pair is connected by the sequential closing loop. -/
theorem loopEdges_mem (n i : ℕ) (hi : i < n) :
    ((loopEdges n).any
      (sameEdge (VRef.ring i, VRef.ring ((i + 1) % n)))) = true := by
  unfold loopEdges
  exact foldl_edgeInsert_mem
    (fun idx => (VRef.ring idx, VRef.ring ((idx + 1) % n))) (List.range n) [] i
    (Or.inl (List.mem_range.mpr hi))

/-- C7.  In the orchestration, the intersection points replace the original
boundary as the outer ring exactly when the intersector produced at least
one intersection; otherwise the original boundary vertices form the ring;
in both cases consecutive ring vertices are connected sequentially into a
closed loop. -/
theorem C7_ring_substitution (b : List Pt) (s : ℚ) :
    ((slice_boundary_at_grid b s ≠ [] →
        (runCore b s).ringVerts =
          (slice_boundary_at_grid b s).map (fun e => e.1)) ∧
     (slice_boundary_at_grid b s = [] → (runCore b s).ringVerts = b)) ∧
    (∀ i, i < (runCore b s).ringVerts.length →
      ((runCore b s).ringEdges.any
        (sameEdge (VRef.ring i,
          VRef.ring ((i + 1) % (runCore b s).ringVerts.length)))) = true) := by
  have hre : (runCore b s).ringEdges = loopEdges (runCore b s).ringVerts.length := by
    cases hsl : slice_boundary_at_grid b s with
    | nil => simp [runCore, build_grid_mesh, hsl]
    | cons x xs => simp [runCore, build_grid_mesh, hsl]
  refine ⟨⟨?_, ?_⟩, ?_⟩
  · intro hne
    cases hsl : slice_boundary_at_grid b s with
    | nil => exact absurd hsl hne
    | cons x xs => simp [runCore, build_grid_mesh, hsl]
  · intro hnil
    simp [runCore, build_grid_mesh, hnil]
  · intro i hi
    rw [hre]
    exact loopEdges_mem _ _ hi

set_option maxHeartbeats 2000000 in
/-- C7 witness: on the unit square with step 1/2 the intersector output is
nonempty, so it becomes the outer ring, connected sequentially. -/
theorem C7_witness :
    slice_boundary_at_grid unitSquare (1 / 2) ≠ [] ∧
    (runCore unitSquare (1 / 2)).ringVerts =
      (slice_boundary_at_grid unitSquare (1 / 2)).map (fun e => e.1) ∧
    ((runCore unitSquare (1 / 2)).ringEdges.any
      (sameEdge (VRef.ring 0,
        VRef.ring ((0 + 1) % (runCore unitSquare (1 / 2)).ringVerts.length)))) =
      true := by
  have hne : slice_boundary_at_grid unitSquare (1 / 2) ≠ [] :=
    of_decide_eq_true (by with_unfolding_all rfl)
  have h0 : 0 < (runCore unitSquare (1 / 2)).ringVerts.length :=
    of_decide_eq_true (by with_unfolding_all rfl)
  exact ⟨hne, (C7_ring_substitution unitSquare (1 / 2)).1.1 hne,
    (C7_ring_substitution unitSquare (1 / 2)).2 0 h0⟩

/-- Bridge edges keep the source reference of the outer vertex they come
from. -/
theorem bridges_count_le_one (outer : List (VRef × Pt))
    (F : (VRef × Pt) → Option Edge)
    (hF : ∀ rp ed, F rp = some ed → ed.1 = rp.1) (r : VRef)
    (hnd : (outer.map Prod.fst).Nodup) :
    ((outer.filterMap F).filter (fun ed => decide (ed.1 = r))).length ≤ 1 := by
  induction outer with
  | nil => simp
  | cons rp rest ih =>
    have hnd' : (rest.map Prod.fst).Nodup := (List.nodup_cons.mp hnd).2
    have hnotin : rp.1 ∉ rest.map Prod.fst := (List.nodup_cons.mp hnd).1
    cases hFr : F rp with
    | none => simpa [List.filterMap_cons, hFr] using ih hnd'
    | some ed =>
      simp only [List.filterMap_cons, hFr]
      rw [List.filter_cons]
      by_cases hr : ed.1 = r
      · have hempty :
            (rest.filterMap F).filter (fun ed' => decide (ed'.1 = r)) = [] := by
          rw [List.filter_eq_nil_iff]
          intro ed' hed'
          rcases List.mem_filterMap.mp hed' with ⟨rp', hrp', hF'⟩
          have h1 : ed'.1 = rp'.1 := hF _ _ hF'
          simp only [decide_eq_true_eq]
          intro hc
          apply hnotin
          rw [← hF rp ed hFr, hr, ← hc, h1]
          exact List.mem_map_of_mem Prod.fst hrp'
        simp [hr, hempty]
      · simpa [hr] using ih hnd'

/-- The outer vertex references created by the builder are pairwise
distinct. -/
theorem outer_fst_nodup (ringPts extraPts : List Pt) :
    (((ringPts.enum.map (fun a => ((VRef.ring a.1, a.2) : VRef × Pt))) ++
      (extraPts.enum.map (fun a => ((VRef.extra a.1, a.2) : VRef × Pt)))).map
        Prod.fst).Nodup := by
  rw [List.map_append, List.map_map, List.map_map]
  have h1 : (Prod.fst ∘ fun a : ℕ × Pt => ((VRef.ring a.1, a.2) : VRef × Pt)) =
      (VRef.ring ∘ Prod.fst) := rfl
  have h2 : (Prod.fst ∘ fun a : ℕ × Pt => ((VRef.extra a.1, a.2) : VRef × Pt)) =
      (VRef.extra ∘ Prod.fst) := rfl
  rw [h1, h2, ← List.map_map, ← List.map_map, List.enum_map_fst, List.enum_map_fst]
  refine List.Nodup.append ?_ ?_ ?_
  · exact (List.nodup_range _).map (fun a b h => by injection h)
  · exact (List.nodup_range _).map (fun a b h => by injection h)
  · rw [List.disjoint_left]
    intro a ha hb
    rcases List.mem_map.mp ha with ⟨i, _, rfl⟩
    rcases List.mem_map.mp hb with ⟨j, _, hij⟩
    exact absurd hij (by simp)

/-- Correctness of the best-candidate fold: the result records its own
squared distance, was found at a scanned cell (or was the start value), and
its distance is minimal among all scanned candidates and the start value. -/
theorem nearestFold_spec (coords : ℕ → Pt) (pt : Pt)
    (gmap : List ((ℤ × ℤ) × ℕ)) (cells : List (ℤ × ℤ))
    (acc : Option (ℕ × ℚ))
    (hacc : ∀ g0 d0, acc = some (g0, d0) → d0 = distSq (coords g0) pt) :
    ∀ g d, cells.foldl (fun best c =>
        match gmap.lookup c with
        | none => best
        | some gv =>
          let dv := distSq (coords gv) pt
          match best with
          | none => some (gv, dv)
          | some b => if dv < b.2 then some (gv, dv) else some b) acc
        = some (g, d) →
      d = distSq (coords g) pt ∧
      ((∃ c ∈ cells, gmap.lookup c = some g) ∨ acc = some (g, d)) ∧
      (∀ c ∈ cells, ∀ g', gmap.lookup c = some g' →
        d ≤ distSq (coords g') pt) ∧
      (∀ g0 d0, acc = some (g0, d0) → d ≤ d0) := by
  induction cells generalizing acc with
  | nil =>
    intro g d hres
    simp only [List.foldl_nil] at hres
    refine ⟨hacc g d hres, Or.inr hres, ?_, ?_⟩
    · intro c hc; simp at hc
    · intro g0 d0 h0
      rw [hres] at h0
      cases h0
      exact le_refl _
  | cons c rest ih =>
    intro g d hres
    simp only [List.foldl_cons] at hres
    cases hlc : gmap.lookup c with
    | none =>
      rw [hlc] at hres
      have h := ih acc hacc g d hres
      refine ⟨h.1, ?_, ?_, h.2.2.2⟩
      · rcases h.2.1 with ⟨c', hc', hl⟩ | hs
        · exact Or.inl ⟨c', List.mem_cons_of_mem _ hc', hl⟩
        · exact Or.inr hs
      · intro c' hc' g' hl'
        rcases List.mem_cons.mp hc' with rfl | hc''
        · rw [hlc] at hl'; cases hl'
        · exact h.2.2.1 c' hc'' g' hl'
    | some gv =>
      rw [hlc] at hres
      cases acc with
      | none =>
        have h := ih (some (gv, distSq (coords gv) pt))
          (by intro g0 d0 h0; cases h0; rfl) g d hres
        refine ⟨h.1, ?_, ?_, ?_⟩
        · rcases h.2.1 with ⟨c', hc', hl⟩ | hs
          · exact Or.inl ⟨c', List.mem_cons_of_mem _ hc', hl⟩
          · cases hs
            exact Or.inl ⟨c, List.mem_cons_self _ _, hlc⟩
        · intro c' hc' g' hl'
          rcases List.mem_cons.mp hc' with rfl | hc''
          · rw [hlc] at hl'
            cases hl'
            exact h.2.2.2 gv (distSq (coords gv) pt) rfl
          · exact h.2.2.1 c' hc'' g' hl'
        · intro g0 d0 h0
          cases h0
      | some b =>
        obtain ⟨b1, b2⟩ := b
        dsimp only at hres
        by_cases hlt : distSq (coords gv) pt < b2
        · rw [if_pos hlt] at hres
          have h := ih (some (gv, distSq (coords gv) pt))
            (by intro g0 d0 h0; cases h0; rfl) g d hres
          refine ⟨h.1, ?_, ?_, ?_⟩
          · rcases h.2.1 with ⟨c', hc', hl⟩ | hs
            · exact Or.inl ⟨c', List.mem_cons_of_mem _ hc', hl⟩
            · cases hs
              exact Or.inl ⟨c, List.mem_cons_self _ _, hlc⟩
          · intro c' hc' g' hl'
            rcases List.mem_cons.mp hc' with rfl | hc''
            · rw [hlc] at hl'
              cases hl'
              exact h.2.2.2 gv (distSq (coords gv) pt) rfl
            · exact h.2.2.1 c' hc'' g' hl'
          · intro g0 d0 h0
            cases h0
            exact (h.2.2.2 gv (distSq (coords gv) pt) rfl).trans (le_of_lt hlt)
        · rw [if_neg hlt] at hres
          have h := ih (some (b1, b2))
            (by intro g0 d0 h0; cases h0; exact hacc b1 b2 rfl) g d hres
          refine ⟨h.1, ?_, ?_, ?_⟩
          · rcases h.2.1 with ⟨c', hc', hl⟩ | hs
            · exact Or.inl ⟨c', List.mem_cons_of_mem _ hc', hl⟩
            · exact Or.inr hs
          · intro c' hc' g' hl'
            rcases List.mem_cons.mp hc' with rfl | hc''
            · rw [hlc] at hl'
              cases hl'
              exact (h.2.2.2 b1 b2 rfl).trans (le_of_not_lt hlt)
            · exact h.2.2.1 c' hc'' g' hl'
          · intro g0 d0 h0
            cases h0
            exact h.2.2.2 b1 b2 rfl

/-- C8.  Each outer vertex receives at most one bridging edge, and
`find_nearest_grid_vert` returns an interior grid vertex found in the 3x3
cell neighbourhood whose squared distance to the query point is minimal
among all candidates found there. -/
theorem C8_single_nearest_bridge :
    (∀ (b : List Pt) (s : ℚ) (ep : List Pt) (f : Bool) (r : VRef),
      (((build_grid_mesh b s ep f).bridges.filter
        (fun ed => decide (ed.1 = r))).length) ≤ 1) ∧
    (∀ (gmap : List ((ℤ × ℤ) × ℕ)) (verts : List Pt) (sx sy st : ℚ)
      (pt : Pt) (g : ℕ),
      find_nearest_grid_vert gmap verts sx sy st pt = some g →
      (∃ c ∈ neighborhood (cellOf sx sy st pt), gmap.lookup c = some g) ∧
      (∀ c ∈ neighborhood (cellOf sx sy st pt), ∀ g',
        gmap.lookup c = some g' →
        distSq (verts.getD g (0, 0)) pt ≤ distSq (verts.getD g' (0, 0)) pt)) := by
  constructor
  · intro b s ep f r
    simp only [build_grid_mesh]
    apply bridges_count_le_one
    · intro rp ed hed
      rcases Option.map_eq_some'.mp hed with ⟨g, _, rfl⟩
      rfl
    · exact outer_fst_nodup _ _
  · intro gmap verts sx sy st pt g hfind
    unfold find_nearest_grid_vert at hfind
    rcases Option.map_eq_some'.mp hfind with ⟨⟨g', d⟩, hfold, hg⟩
    cases hg
    have h := nearestFold_spec (fun n => verts.getD n (0, 0)) pt gmap
      (neighborhood (cellOf sx sy st pt)) none (by intro g0 d0 h0; cases h0)
      g' d hfold
    refine ⟨?_, ?_⟩
    · rcases h.2.1 with hc | hs
      · exact hc
      · cases hs
    · intro c hc g'' hl
      have := h.2.2.1 c hc g'' hl
      rw [← h.1]
      exact this

set_option maxHeartbeats 2000000 in
/-- C8 witness: on the unit square with step 1, ring vertex 0 has exactly one
bridge, and the nearest-vertex search at (1/2, 1/2) returns grid vertex 0,
found in the neighbourhood with minimal squared distance. -/
theorem C8_witness :
    (((build_grid_mesh unitSquare 1 [] false).bridges.filter
      (fun ed => decide (ed.1 = VRef.ring 0))).length) ≤ 1 ∧
    find_nearest_grid_vert (gridMapOf unitSquare 1)
      (dedupVerts [] (candidatePoints unitSquare 1)) 0 0 1 (1 / 2, 1 / 2) =
      some 0 ∧
    (∃ c ∈ neighborhood (cellOf 0 0 1 (1 / 2, 1 / 2)),
      (gridMapOf unitSquare 1).lookup c = some 0) := by
  have hfind : find_nearest_grid_vert (gridMapOf unitSquare 1)
      (dedupVerts [] (candidatePoints unitSquare 1)) 0 0 1 (1 / 2, 1 / 2) =
      some 0 :=
    of_decide_eq_true (by with_unfolding_all rfl)
  exact ⟨C8_single_nearest_bridge.1 unitSquare 1 [] false (VRef.ring 0),
    hfind,
    (C8_single_nearest_bridge.2 (gridMapOf unitSquare 1)
      (dedupVerts [] (candidatePoints unitSquare 1)) 0 0 1 (1 / 2, 1 / 2) 0
      hfind).1⟩

/-- A finished traversal state is a fixpoint of the loop. -/
theorem travGo_of_finished (edges : List (ℕ × ℕ)) (n : ℕ) (s : TravState)
    (hf : s.finished = true) : travGo edges n s = s := by
  cases n with
  | zero => rfl
  | succ m => simp [travGo, hf]

/-- A successful `findNext` yields an unvisited edge index below the edge
count. -/
theorem findNext_fresh (edges : List (ℕ × ℕ)) (s : TravState)
    (ie : ℕ × (ℕ × ℕ)) (h : findNext edges s = some ie) :
    ie.1 ∉ s.visited ∧ ie.1 < edges.length := by
  constructor
  · have hp := List.find?_some h
    simpa using hp
  · have hm := List.mem_of_find?_eq_some h
    unfold adjOf at hm
    have hm' := List.mem_of_mem_filter hm
    exact List.fst_lt_of_mem_enum hm'

/-- Each non-final iteration marks a fresh edge visited, so with fuel one
more than the number of still-unvisited edges, the loop reaches a break. -/
theorem travGo_finishes (edges : List (ℕ × ℕ)) (n : ℕ) (s : TravState)
    (hnd : s.visited.Nodup) (hlt : ∀ i ∈ s.visited, i < edges.length)
    (hcount : edges.length ≤ n + s.visited.length) :
    (travGo edges (n + 1) s).finished = true := by
  induction n generalizing s with
  | zero =>
    by_cases hf : s.finished
    · simp [travGo, hf]
    · have hstep : travGo edges 1 s = travStep edges s := by
        simp [travGo, hf]
      rw [hstep]
      cases hfn : findNext edges s with
      | none => simp [travStep, hfn]
      | some ie =>
        exfalso
        have hfr := findNext_fresh edges s ie hfn
        have hcard : s.visited.toFinset.card = s.visited.length :=
          List.toFinset_card_of_nodup hnd
        have hsub : s.visited.toFinset ⊆ Finset.range edges.length :=
          fun x hx => Finset.mem_range.mpr (hlt x (List.mem_toFinset.mp hx))
        have heq : s.visited.toFinset = Finset.range edges.length :=
          Finset.eq_of_subset_of_card_le hsub
            (by rw [hcard, Finset.card_range]; simpa using hcount)
        apply hfr.1
        rw [← List.mem_toFinset, heq]
        exact Finset.mem_range.mpr hfr.2
  | succ m ih =>
    by_cases hf : s.finished
    · simp [travGo, hf]
    · have hstep : travGo edges (m + 2) s = travGo edges (m + 1) (travStep edges s) := by
        simp [travGo, hf]
      rw [hstep]
      cases hfn : findNext edges s with
      | none =>
        have : (travStep edges s).finished = true := by simp [travStep, hfn]
        rw [travGo_of_finished edges _ _ this]
        exact this
      | some ie =>
        have hfr := findNext_fresh edges s ie hfn
        by_cases hclose :
            (if ie.2.1 = s.current then ie.2.2 else ie.2.1) = s.loopIdx.headD 0
        · have : (travStep edges s).finished = true := by
            simp only [travStep, hfn]
            rw [if_pos hclose]
          rw [travGo_of_finished edges _ _ this]
          exact this
        · have hsv : (travStep edges s).visited = ie.1 :: s.visited := by
            simp only [travStep, hfn]
            rw [if_neg hclose]
          apply ih (travStep edges s)
          · rw [hsv]
            exact List.nodup_cons.mpr ⟨hfr.1, hnd⟩
          · rw [hsv]
            intro i hi
            rcases List.mem_cons.mp hi with rfl | hi'
            · exact hfr.2
            · exact hlt i hi'
          · rw [hsv]
            simp only [List.length_cons]
            omega

/-- C9.  The adjacency-traversal loop of `extract_boundary_loop` terminates:
each iteration marks a previously unvisited edge, so fuel equal to the
number of boundary edges plus one suffices to reach a break (loop closure
or exhaustion of unvisited incident edges). -/
theorem C9_traversal_terminates (edges : List (ℕ × ℕ)) :
    (travGo edges (edges.length + 1) (travInit edges)).finished = true := by
  apply travGo_finishes
  · simp [travInit]
  · simp [travInit]
  · simp [travInit]

/-- The early-return loop of `point_in_polygon` equals: some edge passes the
exact-incidence test, or the accumulated winding number is nonzero. -/
theorem pipAux_eq (p : Pt) (es : List (Pt × Pt)) (wn : ℤ) :
    pipAux p es wn =
      (es.any (fun e => onSegment e.1 e.2 p) ||
       decide (wn + (es.map (fun e => wnStep e.1 e.2 p)).sum ≠ 0)) := by
  induction es generalizing wn with
  | nil => simp [pipAux]
  | cons e rest ih =>
    by_cases h : onSegment e.1 e.2 p
    · simp [pipAux, h]
    · simp only [pipAux, h, if_false, ih, List.any_cons, Bool.false_or,
        List.map_cons, List.sum_cons]
      rw [if_neg Bool.false_ne_true, add_assoc]

/-- The fold computing Python `min` is a lower bound of the start and all
elements. -/
theorem foldl_min_le (l : List ℚ) (a : ℚ) :
    l.foldl min a ≤ a ∧ ∀ x ∈ l, l.foldl min a ≤ x := by
  induction l generalizing a with
  | nil => exact ⟨le_refl a, by simp⟩
  | cons y ys ih =>
    have h := ih (min a y)
    refine ⟨h.1.trans (min_le_left a y), ?_⟩
    intro x hx
    rcases List.mem_cons.mp hx with rfl | hx'
    · exact h.1.trans (min_le_right a x)
    · exact h.2 x hx'

/-- The fold computing Python `max` is an upper bound of the start and all
elements. -/
theorem le_foldl_max (l : List ℚ) (a : ℚ) :
    a ≤ l.foldl max a ∧ ∀ x ∈ l, x ≤ l.foldl max a := by
  induction l generalizing a with
  | nil => exact ⟨le_refl a, by simp⟩
  | cons y ys ih =>
    have h := ih (max a y)
    refine ⟨(le_max_left a y).trans h.1, ?_⟩
    intro x hx
    rcases List.mem_cons.mp hx with rfl | hx'
    · exact (le_max_right a x).trans h.1
    · exact h.2 x hx'

/-- Python `min` bounds every list element from below. -/
theorem listMin_le (l : List ℚ) (x : ℚ) (hx : x ∈ l) : listMin l ≤ x := by
  cases l with
  | nil => simp at hx
  | cons y ys =>
    rcases List.mem_cons.mp hx with rfl | hx'
    · exact (foldl_min_le ys x).1
    · exact (foldl_min_le ys y).2 x hx'

/-- Python `max` bounds every list element from above. -/
theorem le_listMax (l : List ℚ) (x : ℚ) (hx : x ∈ l) : x ≤ listMax l := by
  cases l with
  | nil => simp at hx
  | cons y ys =>
    rcases List.mem_cons.mp hx with rfl | hx'
    · exact (le_foldl_max ys x).1
    · exact (le_foldl_max ys y).2 x hx'

/-- Both endpoints of each cyclic edge are polygon vertices. -/
theorem polyPairs_mem (poly : List Pt) (e : Pt × Pt)
    (he : e ∈ polyPairs poly) : e.1 ∈ poly ∧ e.2 ∈ poly := by
  obtain ⟨a, b⟩ := e
  have h := List.of_mem_zip he
  exact ⟨h.1, List.mem_rotate.mp h.2⟩

/-- The cyclic edge list has one edge per vertex. -/
theorem polyPairs_length (poly : List Pt) :
    (polyPairs poly).length = poly.length := by
  simp [polyPairs, List.length_zip, List.length_rotate]

/-- The cyclic edge list, indexed: edge i joins vertex i (mod n) to vertex
i+1 (mod n). -/
theorem polyPairs_eq_range (poly : List Pt) (hne : poly ≠ []) :
    polyPairs poly = (List.range poly.length).map
      (fun i => (poly.getD (i % poly.length) (0, 0),
                 poly.getD ((i + 1) % poly.length) (0, 0))) := by
  have hn : 0 < poly.length := List.length_pos.mpr hne
  apply List.ext_getElem
  · simp [polyPairs_length]
  · intro i h1 h2
    rw [polyPairs_length] at h1
    have hi : i < poly.length := h1
    have hrot : i < (poly.rotate 1).length := by
      rw [List.length_rotate]; exact hi
    have hzip : (polyPairs poly)[i] = (poly[i], (poly.rotate 1)[i]) := by
      simp [polyPairs, List.getElem_zip]
    rw [hzip]
    rw [List.getElem_rotate]
    simp only [List.getElem_map, List.getElem_range]
    congr 1
    · rw [List.getD_eq_getElem _ _ (Nat.mod_lt i hn)]
      congr 1
      exact (Nat.mod_eq_of_lt hi).symm
    · rw [List.getD_eq_getElem _ _ (Nat.mod_lt _ hn)]

/-- Stepping the index by one commutes with reduction modulo the length. -/
theorem succ_mod_eq (i n : ℕ) : (i + 1) % n = (i % n + 1) % n := by
  conv_lhs => rw [Nat.add_mod]
  conv_rhs => rw [Nat.add_mod, Nat.mod_mod_of_dvd i dvd_rfl]

/-- A zipped difference of an evaluation telescopes to the difference of the
sums. -/
theorem sum_zip_sub (g : Pt → ℤ) (l l' : List Pt) (h : l.length = l'.length) :
    ((l.zip l').map (fun e => g e.2 - g e.1)).sum =
      (l'.map g).sum - (l.map g).sum := by
  induction l generalizing l' with
  | nil =>
    cases l' with
    | nil => simp
    | cons y ys => simp at h
  | cons x xs ih =>
    cases l' with
    | nil => simp at h
    | cons y ys =>
      simp only [List.zip_cons_cons, List.map_cons, List.sum_cons]
      rw [ih ys (by simpa using h)]
      ring

/-- A list of nonnegative integers has nonnegative sum. -/
theorem sum_nonneg_list (l : List ℤ) (h0 : ∀ x ∈ l, 0 ≤ x) : 0 ≤ l.sum := by
  induction l with
  | nil => simp
  | cons y ys ih =>
    simp only [List.sum_cons]
    have h1 := h0 y (List.mem_cons_self _ _)
    have h2 := ih (fun z hz => h0 z (List.mem_cons_of_mem _ hz))
    linarith

/-- A list of nonnegative integers containing a positive element has positive
sum. -/
theorem sum_pos_of_nonneg_of_pos (l : List ℤ)
    (h0 : ∀ x ∈ l, 0 ≤ x) (hx : ∃ x ∈ l, 0 < x) : 0 < l.sum := by
  induction l with
  | nil => simp at hx
  | cons y ys ih =>
    rcases hx with ⟨x, hxm, hxp⟩
    have hy : 0 ≤ y := h0 y (List.mem_cons_self _ _)
    have hys : ∀ z ∈ ys, 0 ≤ z := fun z hz => h0 z (List.mem_cons_of_mem _ hz)
    rcases List.mem_cons.mp hxm with rfl | hxm'
    · simp only [List.sum_cons]
      have := sum_nonneg_list ys hys
      linarith
    · simp only [List.sum_cons]
      have := ih hys ⟨x, hxm', hxp⟩
      linarith

/-- Negating every element negates the sum. -/
theorem sum_map_neg (l : List ℤ) : (l.map Neg.neg).sum = -l.sum := by
  induction l with
  | nil => simp
  | cons z zs ih =>
    simp only [List.map_cons, List.sum_cons, ih]
    ring

/-- A list of nonpositive integers containing a negative element has negative
sum. -/
theorem sum_neg_of_nonpos_of_neg (l : List ℤ)
    (h0 : ∀ x ∈ l, x ≤ 0) (hx : ∃ x ∈ l, x < 0) : l.sum < 0 := by
  have h1 : ∀ x ∈ l.map Neg.neg, 0 ≤ x := by
    intro x hxm
    rcases List.mem_map.mp hxm with ⟨y, hy, rfl⟩
    simpa using h0 y hy
  have h2 : ∃ x ∈ l.map Neg.neg, 0 < x := by
    rcases hx with ⟨y, hy, hyn⟩
    exact ⟨-y, List.mem_map_of_mem _ hy, by simpa using hyn⟩
  have h3 := sum_pos_of_nonneg_of_pos _ h1 h2
  rw [sum_map_neg] at h3
  linarith

/-- `is_left` as twice the signed area of the triangle (v1, v2, p), grouped
around p. -/
theorem isLeft_expand (v1 v2 p : Pt) :
    is_left v1 v2 p =
      (v2.1 - p.1) * (p.2 - v1.2) + (v1.1 - p.1) * (v2.2 - p.2) := by
  unfold is_left
  ring

/-- `is_left` in vertex-minus-point coordinates. -/
theorem isLeft_uy (v1 v2 p : Pt) :
    is_left v1 v2 p =
      (v1.1 - p.1) * (v2.2 - p.2) - (v2.1 - p.1) * (v1.2 - p.2) := by
  unfold is_left
  ring

/-- A point strictly left of both endpoints is strictly left of any upward
crossing through its level. -/
theorem isLeft_pos_left (v1 v2 p : Pt) (h1 : v1.2 ≤ p.2) (h2 : p.2 < v2.2)
    (hx1 : p.1 < v1.1) (hx2 : p.1 < v2.1) : 0 < is_left v1 v2 p := by
  rw [isLeft_expand]
  nlinarith [mul_nonneg (le_of_lt (sub_pos.mpr hx2)) (sub_nonneg.mpr h1),
    mul_pos (sub_pos.mpr hx1) (sub_pos.mpr h2)]

/-- A point strictly left of both endpoints is strictly right of any downward
crossing through its level. -/
theorem isLeft_neg_left (v1 v2 p : Pt) (h1 : v2.2 ≤ p.2) (h2 : p.2 < v1.2)
    (hx1 : p.1 < v1.1) (hx2 : p.1 < v2.1) : is_left v1 v2 p < 0 := by
  rw [isLeft_expand]
  nlinarith [mul_pos (sub_pos.mpr hx2) (sub_pos.mpr h2),
    mul_nonneg (le_of_lt (sub_pos.mpr hx1)) (sub_nonneg.mpr h1)]

/-- A point strictly right of both endpoints is strictly right of any upward
crossing through its level. -/
theorem isLeft_neg_right (v1 v2 p : Pt) (h1 : v1.2 ≤ p.2) (h2 : p.2 < v2.2)
    (hx1 : v1.1 < p.1) (hx2 : v2.1 < p.1) : is_left v1 v2 p < 0 := by
  rw [isLeft_expand]
  nlinarith [mul_nonneg (le_of_lt (sub_pos.mpr hx2)) (sub_nonneg.mpr h1),
    mul_pos (sub_pos.mpr hx1) (sub_pos.mpr h2)]

/-- A point strictly right of both endpoints is strictly left of any downward
crossing through its level. -/
theorem isLeft_pos_right (v1 v2 p : Pt) (h1 : v2.2 ≤ p.2) (h2 : p.2 < v1.2)
    (hx1 : v1.1 < p.1) (hx2 : v2.1 < p.1) : 0 < is_left v1 v2 p := by
  rw [isLeft_expand]
  nlinarith [mul_pos (sub_pos.mpr hx2) (sub_pos.mpr h2),
    mul_nonneg (le_of_lt (sub_pos.mpr hx1)) (sub_nonneg.mpr h1)]

/-- The exact-incidence test fails when the expanded x-range check fails. -/
theorem onSegment_false_x (v1 v2 p : Pt)
    (h : ¬(min v1.1 v2.1 - tol9 ≤ p.1 ∧ p.1 ≤ max v1.1 v2.1 + tol9)) :
    onSegment v1 v2 p = false := by
  unfold onSegment
  rw [decide_eq_false h]
  simp

/-- The exact-incidence test fails when the expanded y-range check fails. -/
theorem onSegment_false_y (v1 v2 p : Pt)
    (h : ¬(min v1.2 v2.2 - tol9 ≤ p.2 ∧ p.2 ≤ max v1.2 v2.2 + tol9)) :
    onSegment v1 v2 p = false := by
  unfold onSegment
  rw [decide_eq_false h]
  simp

/-- A polygon vertex passes the exact-incidence test on its own outgoing
edge. -/
theorem onSegment_self (v b : Pt) : onSegment v b v = true := by
  have h0 : is_left v b v = 0 := by unfold is_left; ring
  have htol : (0 : ℚ) < tol9 := by norm_num [tol9]
  have hminx := min_le_left v.1 b.1
  have hmaxx := le_max_left v.1 b.1
  have hminy := min_le_left v.2 b.2
  have hmaxy := le_max_left v.2 b.2
  simp only [onSegment, h0, abs_zero, Bool.and_eq_true, decide_eq_true_eq]
  refine ⟨⟨htol, ?_, ?_⟩, ?_, ?_⟩ <;> linarith

/-- An edge entirely strictly below the query level contributes nothing to
the winding number. -/
theorem wnStep_zero_above (v1 v2 p : Pt) (h1 : v1.2 < p.2) (h2 : v2.2 < p.2) :
    wnStep v1 v2 p = 0 := by
  unfold wnStep
  rw [if_pos (le_of_lt h1), if_neg (fun hc => absurd hc.1 (not_lt.mpr (le_of_lt h2)))]

/-- An edge entirely strictly above the query level contributes nothing. -/
theorem wnStep_zero_below (v1 v2 p : Pt) (h1 : p.2 < v1.2) (h2 : p.2 < v2.2) :
    wnStep v1 v2 p = 0 := by
  unfold wnStep
  rw [if_neg (not_le.mpr h1), if_neg (fun hc => absurd hc.1 (not_le.mpr h2))]

/-- An edge entirely strictly left of the query point contributes nothing:
crossings exist but the orientation test rejects them. -/
theorem wnStep_zero_right (v1 v2 p : Pt) (hx1 : v1.1 < p.1) (hx2 : v2.1 < p.1) :
    wnStep v1 v2 p = 0 := by
  unfold wnStep
  by_cases h1 : v1.2 ≤ p.2
  · rw [if_pos h1, if_neg]
    intro hc
    exact absurd hc.2 (not_lt.mpr (le_of_lt (isLeft_neg_right v1 v2 p h1 hc.1 hx1 hx2)))
  · rw [if_neg h1, if_neg]
    intro hc
    exact absurd hc.2
      (not_lt.mpr (le_of_lt (isLeft_pos_right v1 v2 p hc.1 (lt_of_not_le h1) hx1 hx2)))

/-- For a query point strictly right of both endpoints, the winding
contribution is the indicator difference of the endpoints being above the
level: every geometric crossing is accepted by the orientation test. -/
theorem wnStep_left_eq (v1 v2 p : Pt) (hx1 : p.1 < v1.1) (hx2 : p.1 < v2.1) :
    wnStep v1 v2 p =
      (if p.2 < v2.2 then (1 : ℤ) else 0) - (if p.2 < v1.2 then 1 else 0) := by
  unfold wnStep
  by_cases h1 : v1.2 ≤ p.2
  · rw [if_neg (not_lt.mpr h1)]
    by_cases h2 : p.2 < v2.2
    · rw [if_pos h1, if_pos ⟨h2, isLeft_pos_left v1 v2 p h1 h2 hx1 hx2⟩, if_pos h2]
      norm_num
    · rw [if_pos h1, if_neg (fun hc => h2 hc.1), if_neg h2]
      norm_num
  · have h1' : p.2 < v1.2 := lt_of_not_le h1
    rw [if_neg h1, if_pos h1']
    by_cases h2 : v2.2 ≤ p.2
    · rw [if_pos ⟨h2, isLeft_neg_left v1 v2 p h2 h1' hx1 hx2⟩,
        if_neg (not_lt.mpr h2)]
      norm_num
    · rw [if_neg (fun hc => h2 hc.1), if_pos (lt_of_not_le h2)]
      norm_num

/-- A function periodic with period n is determined by the index modulo n. -/
theorem per_mod (w : ℕ → Pt) (n : ℕ) (hn : 0 < n)
    (hper : ∀ i, w (i + n) = w i) : ∀ i, w i = w (i % n) := by
  intro i
  induction i using Nat.strong_induction_on with
  | _ i ih =>
    by_cases h : i < n
    · rw [Nat.mod_eq_of_lt h]
    · have hle : n ≤ i := le_of_not_lt h
      have h2 : w i = w (i - n) := by
        conv_lhs => rw [← Nat.sub_add_cancel hle]
        rw [hper]
      rw [Nat.mod_eq_sub_mod hle, h2]
      exact ih (i - n) (by omega)

/-- The cyclic ratio descent: a sequence of vertices periodically closing on
itself cannot be strictly left of the query point's view at every step if
every consecutive y-offset pair has positive product (all on one side of the
level).  Core contradiction for the strict-inside case (counterclockwise). -/
theorem ratio_cycle_false_pos (w : ℕ → Pt) (p : Pt) (n : ℕ) (hn : 0 < n)
    (hper : ∀ i, w (i + n) = w i)
    (HL : ∀ i, 0 < is_left (w i) (w (i + 1)) p)
    (hprod : ∀ i, 0 < ((w i).2 - p.2) * ((w (i + 1)).2 - p.2)) : False := by
  set r : ℕ → ℚ := fun i => ((w i).1 - p.1) / ((w i).2 - p.2) with hr
  have hy : ∀ i, (w i).2 - p.2 ≠ 0 := by
    intro i h0
    have h1 := hprod i
    rw [h0, zero_mul] at h1
    exact lt_irrefl _ h1
  have hstep : ∀ i, r (i + 1) < r i := by
    intro i
    have h1 : r i - r (i + 1) =
        (((w i).1 - p.1) * ((w (i + 1)).2 - p.2) -
         ((w (i + 1)).1 - p.1) * ((w i).2 - p.2)) /
        (((w i).2 - p.2) * ((w (i + 1)).2 - p.2)) := by
      show ((w i).1 - p.1) / ((w i).2 - p.2) -
          ((w (i + 1)).1 - p.1) / ((w (i + 1)).2 - p.2) = _
      rw [div_sub_div _ _ (hy i) (hy (i + 1))]
      congr 1
      ring
    have h2 : 0 < r i - r (i + 1) := by
      rw [h1]
      apply div_pos _ (hprod i)
      have h3 := HL i
      rw [isLeft_uy] at h3
      linarith
    linarith
  have hchain : ∀ m i, r (i + m + 1) < r i := by
    intro m
    induction m with
    | zero => intro i; simpa using hstep i
    | succ k ih =>
      intro i
      have h0 : i + (k + 1) + 1 = (i + 1) + k + 1 := by omega
      rw [h0]
      exact (ih (i + 1)).trans (hstep i)
  have hlast : r (0 + (n - 1) + 1) < r 0 := hchain (n - 1) 0
  have hidx : 0 + (n - 1) + 1 = 0 + n := by omega
  have hrn : r (0 + n) = r 0 := by
    show ((w (0 + n)).1 - p.1) / ((w (0 + n)).2 - p.2) = _
    rw [hper 0]
  rw [hidx, hrn] at hlast
  exact lt_irrefl _ hlast

/-- Mirror of the ratio descent for the clockwise case. -/
theorem ratio_cycle_false_neg (w : ℕ → Pt) (p : Pt) (n : ℕ) (hn : 0 < n)
    (hper : ∀ i, w (i + n) = w i)
    (HL : ∀ i, is_left (w i) (w (i + 1)) p < 0)
    (hprod : ∀ i, 0 < ((w i).2 - p.2) * ((w (i + 1)).2 - p.2)) : False := by
  set r : ℕ → ℚ := fun i => ((w i).1 - p.1) / ((w i).2 - p.2) with hr
  have hy : ∀ i, (w i).2 - p.2 ≠ 0 := by
    intro i h0
    have h1 := hprod i
    rw [h0, zero_mul] at h1
    exact lt_irrefl _ h1
  have hstep : ∀ i, r i < r (i + 1) := by
    intro i
    have h1 : r i - r (i + 1) =
        (((w i).1 - p.1) * ((w (i + 1)).2 - p.2) -
         ((w (i + 1)).1 - p.1) * ((w i).2 - p.2)) /
        (((w i).2 - p.2) * ((w (i + 1)).2 - p.2)) := by
      show ((w i).1 - p.1) / ((w i).2 - p.2) -
          ((w (i + 1)).1 - p.1) / ((w (i + 1)).2 - p.2) = _
      rw [div_sub_div _ _ (hy i) (hy (i + 1))]
      congr 1
      ring
    have h2 : r i - r (i + 1) < 0 := by
      rw [h1]
      apply div_neg_of_neg_of_pos _ (hprod i)
      have h3 := HL i
      rw [isLeft_uy] at h3
      linarith
    linarith
  have hchain : ∀ m i, r i < r (i + m + 1) := by
    intro m
    induction m with
    | zero => intro i; simpa using hstep i
    | succ k ih =>
      intro i
      have h0 : i + (k + 1) + 1 = (i + 1) + k + 1 := by omega
      rw [h0]
      exact (hstep i).trans (ih (i + 1))
  have hlast : r 0 < r (0 + (n - 1) + 1) := hchain (n - 1) 0
  have hidx : 0 + (n - 1) + 1 = 0 + n := by omega
  have hrn : r (0 + n) = r 0 := by
    show ((w (0 + n)).1 - p.1) / ((w (0 + n)).2 - p.2) = _
    rw [hper 0]
  rw [hidx, hrn] at hlast
  exact lt_irrefl _ hlast

/-- A periodic vertex cycle strictly left-winding around the query point must
cross its horizontal level upward somewhere. -/
theorem cyclic_exists_up (w : ℕ → Pt) (p : Pt) (n : ℕ) (hn : 0 < n)
    (hper : ∀ i, w (i + n) = w i)
    (HL : ∀ i, 0 < is_left (w i) (w (i + 1)) p) :
    ∃ i, (w i).2 ≤ p.2 ∧ p.2 < (w (i + 1)).2 := by
  by_contra hno
  push_neg at hno
  by_cases hex : ∃ j, (w j).2 ≤ p.2
  · obtain ⟨j, hj⟩ := hex
    have hfwd : ∀ m, (w (j + m)).2 ≤ p.2 := by
      intro m
      induction m with
      | zero => simpa using hj
      | succ k ih =>
        have h1 := hno (j + k) ih
        have h2 : j + (k + 1) = (j + k) + 1 := by omega
        rw [h2]
        exact le_of_not_lt (fun hc => absurd (h1) (not_le.mpr hc))
    have hall : ∀ i, (w i).2 ≤ p.2 := by
      intro i
      have hk : i + n * (j + 1) = j + (i + n * (j + 1) - j) := by
        have : j ≤ i + n * (j + 1) := by nlinarith
        omega
      have h1 : w (i + n * (j + 1)) = w i := by
        rw [per_mod w n hn hper (i + n * (j + 1)), per_mod w n hn hper i,
          Nat.add_mul_mod_self_left]
      rw [← h1]
      rw [hk]
      exact hfwd _
    by_cases hz : ∃ i0, (w i0).2 = p.2
    · obtain ⟨i0, hz0⟩ := hz
      have h1 := HL i0
      rw [isLeft_uy] at h1
      have hy0 : (w i0).2 - p.2 = 0 := by rw [hz0]; ring
      rw [hy0, mul_zero, sub_zero] at h1
      have hy1le : (w (i0 + 1)).2 - p.2 ≤ 0 := by
        have := hall (i0 + 1)
        linarith
      have hu0 : (w i0).1 - p.1 < 0 := by nlinarith
      have hk : i0 + n - 1 + 1 = i0 + n := by omega
      have h2 := HL (i0 + n - 1)
      rw [isLeft_uy, hk, hper i0] at h2
      rw [hy0, mul_zero, zero_sub] at h2
      have hyprev : (w (i0 + n - 1)).2 - p.2 ≤ 0 := by
        have := hall (i0 + n - 1)
        linarith
      nlinarith
    · have hstrict : ∀ i, (w i).2 < p.2 := by
        intro i
        rcases lt_or_eq_of_le (hall i) with h | h
        · exact h
        · exact absurd ⟨i, h⟩ hz
      exact ratio_cycle_false_pos w p n hn hper HL (by
        intro i
        have h1 := hstrict i
        have h2 := hstrict (i + 1)
        nlinarith)
  · push_neg at hex
    exact ratio_cycle_false_pos w p n hn hper HL (by
      intro i
      have h1 := hex i
      have h2 := hex (i + 1)
      nlinarith)

/-- A periodic vertex cycle strictly right-winding around the query point
must cross its horizontal level downward somewhere. -/
theorem cyclic_exists_down (w : ℕ → Pt) (p : Pt) (n : ℕ) (hn : 0 < n)
    (hper : ∀ i, w (i + n) = w i)
    (HL : ∀ i, is_left (w i) (w (i + 1)) p < 0) :
    ∃ i, p.2 < (w i).2 ∧ (w (i + 1)).2 ≤ p.2 := by
  by_contra hno
  push_neg at hno
  by_cases hex : ∃ j, p.2 < (w j).2
  · obtain ⟨j, hj⟩ := hex
    have hfwd : ∀ m, p.2 < (w (j + m)).2 := by
      intro m
      induction m with
      | zero => simpa using hj
      | succ k ih =>
        have h1 := hno (j + k) ih
        have h2 : j + (k + 1) = (j + k) + 1 := by omega
        rw [h2]
        exact h1
    have hall : ∀ i, p.2 < (w i).2 := by
      intro i
      have hk : i + n * (j + 1) = j + (i + n * (j + 1) - j) := by
        have : j ≤ i + n * (j + 1) := by nlinarith
        omega
      have h1 : w (i + n * (j + 1)) = w i := by
        rw [per_mod w n hn hper (i + n * (j + 1)), per_mod w n hn hper i,
          Nat.add_mul_mod_self_left]
      rw [← h1, hk]
      exact hfwd _
    exact ratio_cycle_false_neg w p n hn hper HL (by
      intro i
      have h1 := hall i
      have h2 := hall (i + 1)
      nlinarith)
  · push_neg at hex
    by_cases hz : ∃ i0, (w i0).2 = p.2
    · obtain ⟨i0, hz0⟩ := hz
      have h1 := HL i0
      rw [isLeft_uy] at h1
      have hy0 : (w i0).2 - p.2 = 0 := by rw [hz0]; ring
      rw [hy0, mul_zero, sub_zero] at h1
      have hy1le : (w (i0 + 1)).2 - p.2 ≤ 0 := by
        have := hex (i0 + 1)
        linarith
      have hu0 : 0 < (w i0).1 - p.1 := by nlinarith
      have hk : i0 + n - 1 + 1 = i0 + n := by omega
      have h2 := HL (i0 + n - 1)
      rw [isLeft_uy, hk, hper i0] at h2
      rw [hy0, mul_zero, zero_sub] at h2
      have hyprev : (w (i0 + n - 1)).2 - p.2 ≤ 0 := by
        have := hex (i0 + n - 1)
        linarith
      nlinarith
    · have hstrict : ∀ i, (w i).2 < p.2 := by
        intro i
        rcases lt_or_eq_of_le (hex i) with h | h
        · exact h
        · exact absurd ⟨i, h⟩ hz
      exact ratio_cycle_false_neg w p n hn hper HL (by
        intro i
        have h1 := hstrict i
        have h2 := hstrict (i + 1)
        nlinarith)

set_option maxHeartbeats 1600000 in
/-- A query point strictly on the inner side of every directed boundary edge
(the strict-interior characterization for a convex polygon, in either
orientation) is classified inside. -/
theorem pip_true_of_strict_side (poly : List Pt) (p : Pt) (hne : poly ≠ [])
    (hside : (∀ e ∈ polyPairs poly, 0 < is_left e.1 e.2 p) ∨
             (∀ e ∈ polyPairs poly, is_left e.1 e.2 p < 0)) :
    point_in_polygon p poly = true := by
  have hn : 0 < poly.length := List.length_pos.mpr hne
  set n := poly.length with hnn
  set w : ℕ → Pt := fun i => poly.getD (i % n) (0, 0) with hw
  have hper : ∀ i, w (i + n) = w i := by
    intro i
    simp only [hw]
    rw [Nat.add_mod_right]
  have hmem : ∀ j, j < n → (w j, w (j + 1)) ∈ polyPairs poly := by
    intro j hj
    rw [polyPairs_eq_range poly hne]
    exact List.mem_map.mpr ⟨j, List.mem_range.mpr hj, rfl⟩
  have hwmod : ∀ i, w i = w (i % n) := per_mod w n hn hper
  have hwsucc : ∀ i, w (i + 1) = w (i % n + 1) := by
    intro i
    simp only [hw]
    rw [succ_mod_eq]
  have hIL : ∀ i, is_left (w i) (w (i + 1)) p =
      is_left (w (i % n)) (w (i % n + 1)) p := by
    intro i
    rw [hwmod i, hwsucc i]
  simp only [point_in_polygon, pipAux_eq, zero_add, Bool.or_eq_true,
    decide_eq_true_eq]
  rcases hside with hccw | hcw
  · have HL : ∀ i, 0 < is_left (w i) (w (i + 1)) p := by
      intro i
      rw [hIL i]
      exact hccw _ (hmem (i % n) (Nat.mod_lt i hn))
    obtain ⟨i, hup⟩ := cyclic_exists_up w p n hn hper HL
    have hj : i % n < n := Nat.mod_lt i hn
    have hupj : (w (i % n)).2 ≤ p.2 ∧ p.2 < (w (i % n + 1)).2 := by
      rw [← hwmod i, ← hwsucc i]
      exact hup
    right
    have hsum : 0 < ((polyPairs poly).map (fun e => wnStep e.1 e.2 p)).sum := by
      apply sum_pos_of_nonneg_of_pos
      · intro x hx
        rcases List.mem_map.mp hx with ⟨e, he, rfl⟩
        have hl := hccw e he
        unfold wnStep
        by_cases h1 : e.1.2 ≤ p.2
        · rw [if_pos h1]
          split_ifs <;> norm_num
        · rw [if_neg h1,
            if_neg (fun hc => absurd hl (not_lt.mpr (le_of_lt hc.2)))]
      · refine ⟨wnStep (w (i % n)) (w (i % n + 1)) p,
          List.mem_map_of_mem _ (hmem (i % n) hj), ?_⟩
        unfold wnStep
        rw [if_pos hupj.1, if_pos ⟨hupj.2, by rw [← hIL i]; exact HL i⟩]
        norm_num
    omega
  · have HL : ∀ i, is_left (w i) (w (i + 1)) p < 0 := by
      intro i
      rw [hIL i]
      exact hcw _ (hmem (i % n) (Nat.mod_lt i hn))
    obtain ⟨i, hdown⟩ := cyclic_exists_down w p n hn hper HL
    have hj : i % n < n := Nat.mod_lt i hn
    have hdownj : p.2 < (w (i % n)).2 ∧ (w (i % n + 1)).2 ≤ p.2 := by
      rw [← hwmod i, ← hwsucc i]
      exact hdown
    right
    have hsum : ((polyPairs poly).map (fun e => wnStep e.1 e.2 p)).sum < 0 := by
      apply sum_neg_of_nonpos_of_neg
      · intro x hx
        rcases List.mem_map.mp hx with ⟨e, he, rfl⟩
        have hl := hcw e he
        unfold wnStep
        by_cases h1 : e.1.2 ≤ p.2
        · rw [if_pos h1,
            if_neg (fun hc => absurd hl (not_lt.mpr (le_of_lt hc.2)))]
        · rw [if_neg h1]
          split_ifs <;> norm_num
      · refine ⟨wnStep (w (i % n)) (w (i % n + 1)) p,
          List.mem_map_of_mem _ (hmem (i % n) hj), ?_⟩
        unfold wnStep
        rw [if_neg (not_le.mpr hdownj.1),
          if_pos ⟨hdownj.2, by rw [← hIL i]; exact HL i⟩]
        norm_num
    omega

/-- A query point outside the bounding box expanded by the 1e-9 tolerance is
classified outside. -/
theorem pip_false_outside (poly : List Pt) (p : Pt) (_hne : poly ≠ [])
    (hout : listMax (poly.map Prod.fst) + tol9 < p.1 ∨
            p.1 < listMin (poly.map Prod.fst) - tol9 ∨
            listMax (poly.map Prod.snd) + tol9 < p.2 ∨
            p.2 < listMin (poly.map Prod.snd) - tol9) :
    point_in_polygon p poly = false := by
  have hvx : ∀ v ∈ poly, listMin (poly.map Prod.fst) ≤ v.1 ∧
      v.1 ≤ listMax (poly.map Prod.fst) := fun v hv =>
    ⟨listMin_le _ _ (List.mem_map_of_mem _ hv),
     le_listMax _ _ (List.mem_map_of_mem _ hv)⟩
  have hvy : ∀ v ∈ poly, listMin (poly.map Prod.snd) ≤ v.2 ∧
      v.2 ≤ listMax (poly.map Prod.snd) := fun v hv =>
    ⟨listMin_le _ _ (List.mem_map_of_mem _ hv),
     le_listMax _ _ (List.mem_map_of_mem _ hv)⟩
  have htol : (0 : ℚ) < tol9 := by norm_num [tol9]
  simp only [point_in_polygon, pipAux_eq, zero_add]
  have hany : (polyPairs poly).any (fun e => onSegment e.1 e.2 p) = false := by
    rw [List.any_eq_false]
    intro e he
    have hm := polyPairs_mem poly e he
    rcases hout with h | h | h | h
    · rw [onSegment_false_x]
      · simp
      · rintro ⟨-, h2⟩
        have b1 := (hvx e.1 hm.1).2
        have b2 := (hvx e.2 hm.2).2
        have : max e.1.1 e.2.1 ≤ listMax (poly.map Prod.fst) := max_le b1 b2
        linarith
    · rw [onSegment_false_x]
      · simp
      · rintro ⟨h1, -⟩
        have b1 := (hvx e.1 hm.1).1
        have b2 := (hvx e.2 hm.2).1
        have : listMin (poly.map Prod.fst) ≤ min e.1.1 e.2.1 :=
          le_min b1 b2
        linarith
    · rw [onSegment_false_y]
      · simp
      · rintro ⟨-, h2⟩
        have b1 := (hvy e.1 hm.1).2
        have b2 := (hvy e.2 hm.2).2
        have : max e.1.2 e.2.2 ≤ listMax (poly.map Prod.snd) := max_le b1 b2
        linarith
    · rw [onSegment_false_y]
      · simp
      · rintro ⟨h1, -⟩
        have b1 := (hvy e.1 hm.1).1
        have b2 := (hvy e.2 hm.2).1
        have : listMin (poly.map Prod.snd) ≤ min e.1.2 e.2.2 :=
          le_min b1 b2
        linarith
  have hsum : ((polyPairs poly).map (fun e => wnStep e.1 e.2 p)).sum = 0 := by
    rcases hout with h | h | h | h
    · apply List.sum_eq_zero
      intro x hx
      rcases List.mem_map.mp hx with ⟨e, he, rfl⟩
      have hm := polyPairs_mem poly e he
      exact wnStep_zero_right _ _ _
        (lt_of_le_of_lt (hvx e.1 hm.1).2 (by linarith))
        (lt_of_le_of_lt (hvx e.2 hm.2).2 (by linarith))
    · have hmap : (polyPairs poly).map (fun e => wnStep e.1 e.2 p) =
          (polyPairs poly).map (fun e =>
            (if p.2 < e.2.2 then (1 : ℤ) else 0) -
            (if p.2 < e.1.2 then 1 else 0)) := by
        apply List.map_congr_left
        intro e he
        have hm := polyPairs_mem poly e he
        exact wnStep_left_eq _ _ _
          (lt_of_lt_of_le (by linarith) (hvx e.1 hm.1).1)
          (lt_of_lt_of_le (by linarith) (hvx e.2 hm.2).1)
      rw [hmap]
      have hz := sum_zip_sub (fun v => if p.2 < v.2 then (1 : ℤ) else 0)
        poly (poly.rotate 1) (by rw [List.length_rotate])
      rw [polyPairs, hz]
      have hperm : ((poly.rotate 1).map
          (fun v => if p.2 < v.2 then (1 : ℤ) else 0)).sum =
          (poly.map (fun v => if p.2 < v.2 then (1 : ℤ) else 0)).sum :=
        ((poly.rotate_perm 1).map _).sum_eq
      rw [hperm]
      ring
    · apply List.sum_eq_zero
      intro x hx
      rcases List.mem_map.mp hx with ⟨e, he, rfl⟩
      have hm := polyPairs_mem poly e he
      exact wnStep_zero_above _ _ _
        (lt_of_le_of_lt (hvy e.1 hm.1).2 (by linarith))
        (lt_of_le_of_lt (hvy e.2 hm.2).2 (by linarith))
    · apply List.sum_eq_zero
      intro x hx
      rcases List.mem_map.mp hx with ⟨e, he, rfl⟩
      have hm := polyPairs_mem poly e he
      exact wnStep_zero_below _ _ _
        (lt_of_lt_of_le (by linarith) (hvy e.1 hm.1).1)
        (lt_of_lt_of_le (by linarith) (hvy e.2 hm.2).1)
  rw [hany, hsum]
  simp

/-- Every polygon vertex is classified inside: its own outgoing edge passes
the exact-incidence test. -/
theorem pip_true_of_vertex (poly : List Pt) (v : Pt) (hv : v ∈ poly) :
    point_in_polygon v poly = true := by
  have hne : poly ≠ [] := by
    intro h
    rw [h] at hv
    simp at hv
  rcases List.mem_iff_getElem.mp hv with ⟨i, hi, hgi⟩
  have hpair : (poly.getD (i % poly.length) (0, 0),
      poly.getD ((i + 1) % poly.length) (0, 0)) ∈ polyPairs poly := by
    rw [polyPairs_eq_range poly hne]
    exact List.mem_map.mpr ⟨i, List.mem_range.mpr hi, rfl⟩
  have hfst : poly.getD (i % poly.length) (0, 0) = v := by
    rw [Nat.mod_eq_of_lt hi, List.getD_eq_getElem _ _ hi]
    exact hgi
  simp only [point_in_polygon, pipAux_eq, Bool.or_eq_true]
  left
  rw [List.any_eq_true]
  refine ⟨_, hpair, ?_⟩
  rw [hfst]
  exact onSegment_self _ _

/-- C6.  The claim says every point strictly outside the polygon's bounding
box is classified outside.  The point (1 + 1e-10, 1/2) lies strictly outside
the unit square's bounding box (its x exceeds the maximal vertex x), yet the
1e-9-tolerance exact-incidence test accepts it against the right edge, so
`point_in_polygon` returns true. -/
theorem C6_counterexample :
    listMax (unitSquare.map Prod.fst) < 1 + 1 / 10 ^ 10 ∧
    point_in_polygon ((1 : ℚ) + 1 / 10 ^ 10, 1 / 2) unitSquare = true :=
  of_decide_eq_true (by with_unfolding_all rfl)

/-- C6 amended: for a nonempty polygon, a point strictly on the inner side of
every edge (the strict interior of a convex polygon, either orientation)
is classified inside; a point outside the bounding box expanded by the 1e-9
tolerance is classified outside; and every polygon vertex is classified
inside. -/
theorem C6_convex_classifier (poly : List Pt) (p : Pt) (hne : poly ≠ []) :
    (((∀ e ∈ polyPairs poly, 0 < is_left e.1 e.2 p) ∨
      (∀ e ∈ polyPairs poly, is_left e.1 e.2 p < 0)) →
      point_in_polygon p poly = true) ∧
    ((listMax (poly.map Prod.fst) + tol9 < p.1 ∨
      p.1 < listMin (poly.map Prod.fst) - tol9 ∨
      listMax (poly.map Prod.snd) + tol9 < p.2 ∨
      p.2 < listMin (poly.map Prod.snd) - tol9) →
      point_in_polygon p poly = false) ∧
    (∀ v ∈ poly, point_in_polygon v poly = true) :=
  ⟨fun hside => pip_true_of_strict_side poly p hne hside,
   fun hout => pip_false_outside poly p hne hout,
   fun v hv => pip_true_of_vertex poly v hv⟩

/-- C6 witness: on the unit square, the center (1/2, 1/2) is strictly left of
every edge and classified inside; (5, 5) is beyond the expanded bounding box
and classified outside; the vertex (0, 0) is classified inside. -/
theorem C6_witness :
    point_in_polygon ((1 : ℚ) / 2, (1 : ℚ) / 2) unitSquare = true ∧
    point_in_polygon ((5 : ℚ), (5 : ℚ)) unitSquare = false ∧
    point_in_polygon ((0 : ℚ), (0 : ℚ)) unitSquare = true := by
  have hne : unitSquare ≠ [] := by simp [unitSquare]
  refine ⟨?_, ?_, ?_⟩
  · exact (C6_convex_classifier unitSquare ((1 : ℚ) / 2, (1 : ℚ) / 2) hne).1
      (Or.inl (of_decide_eq_true (by with_unfolding_all rfl)))
  · exact (C6_convex_classifier unitSquare ((5 : ℚ), (5 : ℚ)) hne).2.1
      (Or.inl (of_decide_eq_true (by with_unfolding_all rfl)))
  · exact (C6_convex_classifier unitSquare ((0 : ℚ), (0 : ℚ)) hne).2.2
      ((0 : ℚ), (0 : ℚ)) (of_decide_eq_true (by with_unfolding_all rfl))

end GridIt
